import Mathlib

/-!
Verification development for the SIGEM offline store (src file APIdb.js).

The JavaScript store is shallowly embedded: Dexie tables become Lean lists
keyed by integer `code` / `version`, ISO timestamp strings become integer
instants (epoch milliseconds) or integer day indices, and every mutating
operation becomes a pure function from a `Store` to an `Except`-wrapped
`Store`.  A transaction that throws corresponds to an `Except.error` result,
which by construction leaves the caller's store value untouched.

The timezone utility module (`@/utils/timezone`: `parseChileDateString`,
`startOfChileDay`, `addChileDays`) is not part of the provided sources; where
an embedding needs it, the definition is modelled from the spec and marked as
such in its doc comment.
-/

namespace SIGEM

/-! ### JS-level helpers -/

/-- Digit list to value, most significant first. -/
def digitsToNat (ds : List Nat) : Nat := ds.foldl (fun acc d => acc * 10 + d) 0

def isJsWhitespace (c : Char) : Bool := c = ' ' ∨ c = '\t' ∨ c = '\n' ∨ c = '\r'

/-- `String.prototype.trim()`: strip leading and trailing whitespace (the
whitespace set is reduced to the common blanks). -/
def jsTrim (s : String) : String :=
  ⟨((s.data.dropWhile isJsWhitespace).reverse.dropWhile isJsWhitespace).reverse⟩

/-- `Number.parseInt(String(v).trim(), 10)` on a string: optional sign, then the
leading run of decimal digits; `NaN` (here `none`) when no digit leads. -/
def parseIntJS (s : String) : Option Int :=
  let cs := (jsTrim s).data
  let signed : Int × List Char :=
    match cs with
    | '-' :: r => (-1, r)
    | '+' :: r => (1, r)
    | r => (1, r)
  let ds := signed.2.takeWhile Char.isDigit
  if ds.isEmpty then none
  else some (signed.1 * (digitsToNat (ds.map (fun c => c.toNat - 48)) : Int))

/-- `toInt` from APIdb.js: `parseInt(String(v).trim(), 10)`, `undefined` when not
finite.  A missing JS value (`undefined`/`null`) stringifies to a non-numeric
word, hence `none ↦ none`. -/
def toInt (v : Option String) : Option Int := v.bind parseIntJS

/-- `simpleHash` from APIdb.js: `h = (h * 31 + charCode) >>> 0` folded over the
string, rendered in base 16.  Characters are modelled by their scalar value. -/
def simpleHash (s : String) : String :=
  let h := s.toList.foldl (fun h c => (h * 31 + c.toNat) % 4294967296) 0
  (Nat.toDigits 16 h).asString

/-! ### Data model

Timestamps (`createdAt`, `init_task`, `fecha_inicio`, ...) are modelled as
integer instants in epoch milliseconds; a field value `none` stands for a JS
value that is missing or that `parseFlexibleDate` cannot parse.  The field
`fInicialDay` holds the result of `parseChileDateString(info["F inicial"] ??
info["F_inicial"])` as an integer day index in the fixed Chile timezone
(`none` = unparseable/missing). -/

/-- A JS value stored in `info.obs_anulada`: either a plain string (the
auto-expiry note) or the `[reason, detail]` pair written by `cancelOrder`. -/
inductive Obs where
  | txt (s : String)
  | pair (reason detail : String)
deriving DecidableEq

structure Task where
  status : Option Int := none
  init_task : Option Int := none
  accepted_at : Option Int := none
  end_task : Option Int := none
  completed_at : Option Int := none
  duration_seconds : Option Int := none
  completed_by : Option Int := none
  accepted_protocol : Option Bool := none
  obs_assigned_to : Option String := none
  medicion_result : Option String := none
  medicion_range_from : Option String := none
  medicion_range_to : Option String := none
deriving DecidableEq

structure OrderInfo where
  status : Option Int := none
  numeroOrden : Option String := none
  fInicialDay : Option Int := none
  frecDias : Option String := none
  asignado_a_code : Option Int := none
  especialidadId : Option Int := none
  obs_anulada : Option Obs := none
  fecha_inicio : Option Int := none
  fecha_fin : Option Int := none
  hs_reales : Option ℚ := none
  checkListDict : Option Int := none
deriving DecidableEq

/-- An `orders` table row.  `tasks = some l` models `tasks.data` being an array
`l` (possibly empty); `none` models a missing/non-array `tasks.data`. -/
structure Order where
  code : Int
  info : OrderInfo := {}
  tasks : Option (List Task) := none
deriving DecidableEq

/-- A raw heterogeneous payload handed to `bulkUpsertOrders` /
`applyOrdersSnapshot`, before the integer `code` is resolved.  The candidate
fields are kept as raw strings (`none` = absent or falsy). -/
structure RawOrder where
  code : Option String := none
  numeroOrdenTop : Option String := none
  numero : Option String := none
  idField : Option String := none
  info : OrderInfo := {}
  tasks : Option (List Task) := none
deriving DecidableEq

structure User where
  code : Int
  name : String := ""
  role : String := ""
  speciality : Option Int := none
  active : Bool := true
  signature : Option String := none
  passwordHash : Option String := none
  createdAt : Int := 0
  updatedAt : Int := 0
deriving DecidableEq

/-- One row of `usersMeta`/`ordersMeta` (primary key `&version`). -/
structure Meta where
  version : Int
  changeLog : List String := []
deriving DecidableEq

/-- The whole database: the four tables of APIdb.js that the claims touch. -/
structure Store where
  users : List User := []
  usersMeta : List Meta := []
  orders : List Order := []
  ordersMeta : List Meta := []
deriving DecidableEq

/-! ### Keyed-table primitives (Dexie `put` / `bulkPut` / `orderBy`) -/

/-- Dexie `table.put(r)` on a table with primary key `key`: replace the row
with the same key, else append. -/
def putByKey (key : α → Int) (r : α) (t : List α) : List α :=
  if t.any (fun x => key x = key r) then
    t.map (fun x => if key x = key r then r else x)
  else t ++ [r]

/-- Dexie `table.bulkPut(rows)`: successive keyed puts (last-write-wins). -/
def bulkPutByKey (key : α → Int) (rows : List α) (t : List α) : List α :=
  rows.foldl (fun acc r => putByKey key r acc) t

def putOrderByCode : Order → List Order → List Order := putByKey Order.code
def bulkPutOrders : List Order → List Order → List Order := bulkPutByKey Order.code
def putUserByCode : User → List User → List User := putByKey User.code
def bulkPutUsers : List User → List User → List User := bulkPutByKey User.code

/-- `meta.orderBy("version").last()`: the row with the largest version
(versions are unique keys; on the impossible tie the later row wins). -/
def latestMeta : List Meta → Option Meta
  | [] => none
  | m :: rest =>
    match latestMeta rest with
    | none => some m
    | some a => if m.version > a.version then some m else some a

/-- The visible version of a meta table, `localMeta?.version || 0`. -/
def versionOfT (t : List Meta) : Int := ((latestMeta t).map Meta.version).getD 0

/-- Length of the latest changeLog (0 when the table is empty). -/
def logLenT (t : List Meta) : Nat := ((latestMeta t).map (fun m => m.changeLog.length)).getD 0

/-- Dexie `meta.put(m)` (primary key `&version`). -/
def metaPut (m : Meta) (t : List Meta) : List Meta :=
  (t.filter (fun x => x.version ≠ m.version)) ++ [m]

/-- `bumpUsersVersion` / `bumpOrdersVersion` from APIdb.js (identical bodies):
read the latest meta, put `{version: latest+1, changeLog: latest ++ [line]}`. -/
def bumpMeta (now : Int) (reason : String) (t : List Meta) : List Meta :=
  let latest := latestMeta t
  let nextVer : Int := match latest with | some l => l.version + 1 | none => 1
  let changeLog := (match latest with | some l => l.changeLog | none => []) ++
    [toString now ++ " - " ++ reason]
  metaPut { version := nextVer, changeLog := changeLog } t

/-! ### Derived order status and expiration window -/

/-- `calculateOrderStatus` from APIdb.js.  `none` models a non-array argument
(`!Array.isArray(tasks)` returns 0); task statuses compare as
`Number(t.status) === k`, and a missing status (`NaN`) matches nothing. -/
def calculateOrderStatus (tasks : Option (List Task)) : Int :=
  match tasks with
  | none => 0
  | some ts =>
    if ts.all (fun t => t.status = some 2) then 2
    else if ts.any (fun t => t.status = some 1 ∨ t.status = some 2) then 1
    else 0

def AUTO_EXPIRED_NOTE : String := "Anulada automaticamente por vencimiento"

structure ExpirationInfo where
  startDate : Int
  frequencyDays : Int
  dueDate : Int
  expirationDate : Int
deriving DecidableEq

/-- `computeExpirationInfo` from APIdb.js.  `fInicialDay` already holds the
parsed start day, so the timezone primitives reduce to:
Modelled from the spec: `startOfChileDay`/`addChileDays` (from the missing
`@/utils/timezone` module) "operate in the fixed timezone": start-of-day of a
parsed Chile date is the date's own day index, and adding `n` days is integer
addition on day indices. -/
def computeExpirationInfo : Option OrderInfo → Option ExpirationInfo
  | none => none
  | some info =>
    match info.fInicialDay, toInt info.frecDias with
    | some startDate, some frequencyDays =>
      some { startDate := startDate, frequencyDays := frequencyDays,
             dueDate := startDate + frequencyDays,
             expirationDate := startDate + frequencyDays + 4 }
    | _, _ => none

/-- `isOrderExpired` from APIdb.js, with the reference instant already reduced
to its Chile day index `today`. -/
def isOrderExpired (o : Order) (today : Int) : Bool :=
  match computeExpirationInfo (some o.info) with
  | none => false
  | some e => today > e.expirationDate

/-- JS truthiness of an `obs_anulada` value: `undefined`/`null` and the empty
string are falsy; any other string and any array are truthy. -/
def obsFalsy : Option Obs → Bool
  | none => true
  | some (Obs.txt s) => s = ""
  | some (Obs.pair _ _) => false

/-! ### Users CRUD -/

structure AddUserInput where
  code : Option String := none
  name : Option String := none
  role : Option String := none
  speciality : Option String := none
  active : Bool := true
  password : Option String := none
  signature : Option String := none

/-- `addUser` from APIdb.js.  Validations, then a single `rw` transaction over
`users`+`usersMeta` that re-checks existence, inserts, and bumps the version. -/
def addUser (σ : Store) (now : Int) (inp : AddUserInput) : Except String Store :=
  match toInt inp.code with
  | none => .error "El código debe ser un número entero válido."
  | some numericCode =>
    let trimmedName := jsTrim (inp.name.getD "")
    if trimmedName = "" then .error "El nombre es obligatorio."
    else
      let normalizedRole := jsTrim (inp.role.getD "")
      if normalizedRole = "" then .error "El rol es obligatorio."
      else
        let requiresSpeciality := normalizedRole = "supervisor" ∨ normalizedRole = "mantenedor"
        let specialityValue := toInt inp.speciality
        if requiresSpeciality ∧ specialityValue = none then
          .error "Selecciona una especialidad válida."
        else
          let passwordHash := match inp.password with
            | some p => if p.length ≠ 0 then some (simpleHash p) else none
            | none => none
          if σ.users.any (fun u => u.code = numericCode) then
            .error "Ya existe un usuario con ese código."
          else
            .ok { σ with
              users := σ.users ++ [{
                code := numericCode
                name := trimmedName
                role := normalizedRole
                speciality := if requiresSpeciality then specialityValue else none
                active := inp.active
                signature := inp.signature
                passwordHash := passwordHash
                createdAt := now
                updatedAt := now }]
              usersMeta := bumpMeta now ("add user " ++ toString numericCode) σ.usersMeta }

/-- A patch for `updateUser`; `some` on a field models
`Object.prototype.hasOwnProperty.call(patch, field)`. -/
structure UserPatch where
  name : Option String := none
  role : Option String := none
  speciality : Option (Option String) := none
  active : Option Bool := none
  signature : Option (Option String) := none
  password : Option String := none
  updatedAt : Option Int := none

/-- `updateUser` from APIdb.js.  The `toInt(next.speciality)` call on a stored
integer speciality is the identity, hence the direct reuse of
`existing.speciality`. -/
def updateUser (σ : Store) (now : Int) (code : Option String) (patch : UserPatch) :
    Except String Store :=
  match toInt code with
  | none => .error "El código debe ser un número entero válido."
  | some numericCode =>
    match σ.users.find? (fun u => u.code = numericCode) with
    | none => .error "El usuario especificado no existe."
    | some existing =>
      let nameValue := jsTrim (match patch.name with | some v => v | none => existing.name)
      if nameValue = "" then .error "El nombre es obligatorio."
      else
        let roleValue := jsTrim (match patch.role with | some v => v | none => existing.role)
        if roleValue = "" then .error "El rol es obligatorio."
        else
          let requiresSpeciality := roleValue = "supervisor" ∨ roleValue = "mantenedor"
          let specOutcome : Except String (Option Int) :=
            match patch.speciality with
            | some raw =>
              let parsedSpeciality := toInt raw
              if requiresSpeciality then
                match parsedSpeciality with
                | none => .error "Selecciona una especialidad válida."
                | some v => .ok (some v)
              else .ok parsedSpeciality
            | none =>
              if requiresSpeciality then
                match existing.speciality with
                | none => .error "Selecciona una especialidad válida."
                | some v => .ok (some v)
              else .ok none
          match specOutcome with
          | .error e => .error e
          | .ok specialityFinal =>
            let next : User := { existing with
              name := nameValue
              role := roleValue
              speciality := specialityFinal
              active := patch.active.getD existing.active
              signature := match patch.signature with | some v => v | none => existing.signature
              passwordHash := match patch.password with
                | some p => if jsTrim p ≠ "" then some (simpleHash (jsTrim p)) else existing.passwordHash
                | none => existing.passwordHash
              updatedAt := patch.updatedAt.getD now }
            .ok { σ with
              users := putUserByCode next σ.users
              usersMeta := bumpMeta now ("update user " ++ toString numericCode) σ.usersMeta }

/-- `deleteUser` from APIdb.js: no existence check; one transaction deletes the
key (a no-op when absent) and bumps the version.  A non-numeric code makes
Dexie reject the `delete(undefined)` key, aborting the transaction. -/
def deleteUser (σ : Store) (now : Int) (code : Option String) : Except String Store :=
  match toInt code with
  | none => .error "invalid key"
  | some c =>
    .ok { σ with
      users := σ.users.filter (fun u => u.code ≠ c)
      usersMeta := bumpMeta now ("delete user " ++ toString c) σ.usersMeta }

/-! ### Orders ingestion -/

/-- First candidate field that parses to a finite integer. -/
def firstFiniteInt : List (Option String) → Option Int
  | [] => none
  | v :: rest =>
    match toInt v with
    | some n => some n
    | none => firstFiniteInt rest

/-- The ordered candidate list of `bulkUpsertOrders` / `applyOrdersSnapshot`:
`[o.code, o.info["Numero orden"], o["Numero orden"], o.Numero, o.id]`. -/
def resolveOrderCode (o : RawOrder) : Option Int :=
  firstFiniteInt [o.code, o.info.numeroOrden, o.numeroOrdenTop, o.numero, o.idField]

/-- The per-payload normalization of `bulkUpsertOrders`: resolve the code,
discard on failure, and recompute `info.status` when `tasks.data` is present
(an empty array is truthy in JS, so it does trigger the recompute). -/
def normalizeUpsertOrder (o : RawOrder) : Option Order :=
  match resolveOrderCode o with
  | none => none
  | some n =>
    some { code := n
           info := match o.tasks with
             | some data => { o.info with status := some (calculateOrderStatus (some data)) }
             | none => o.info
           tasks := o.tasks }

/-- The state after `db.orders.bulkPut(canon)` commits in `bulkUpsertOrders`.
In the source this write and the following `bumpOrdersVersion` are two
separate awaits with no enclosing `db.transaction`, so each runs in its own
auto-transaction and this intermediate state is durably visible. -/
def bulkUpsertOrdersPhase1 (σ : Store) (orders : List RawOrder) : Store :=
  let canon := orders.filterMap normalizeUpsertOrder
  if canon.isEmpty then σ else { σ with orders := bulkPutOrders canon σ.orders }

/-- `bulkUpsertOrders` from APIdb.js (the success path: both auto-transactions
commit); returns the input length as the source does. -/
def bulkUpsertOrders (σ : Store) (now : Int) (orders : List RawOrder) : Store × Nat :=
  let σ1 := bulkUpsertOrdersPhase1 σ orders
  ({ σ1 with ordersMeta :=
      bumpMeta now ("bulk upsert orders (" ++ toString orders.length ++ ")") σ1.ordersMeta },
   orders.length)

/-! ### Order lifecycle -/

/-- `cancelOrder` from APIdb.js. -/
def cancelOrder (σ : Store) (now : Int) (orderCode reason detail : Option String) :
    Except String (Store × Order) :=
  match toInt orderCode with
  | none => .error "order code must be numeric"
  | some code =>
    match σ.orders.find? (fun o => o.code = code) with
    | none => .error "order not found"
    | some order =>
      let sanitizedReason := jsTrim (reason.getD "")
      let sanitizedDetail := jsTrim (detail.getD "")
      if sanitizedReason = "" then .error "cancellation reason required"
      else if sanitizedDetail = "" then .error "cancellation detail required"
      else
        let updatedOrder := { order with info := { order.info with
          status := some 3
          obs_anulada := some (Obs.pair sanitizedReason sanitizedDetail) } }
        .ok ({ σ with
               orders := putOrderByCode updatedOrder σ.orders
               ordersMeta := bumpMeta now ("cancel order " ++ toString code) σ.ordersMeta },
             updatedOrder)

/-- `startOrderTask` from APIdb.js.  `toISOOrNow` on an already-parsed instant
is the identity; `prevTask?.init_task || nowISO()` falls back to `now` when the
field is missing/unparseable. -/
def startOrderTask (σ : Store) (now : Int) (orderCode taskIndex : Option String) :
    Except String (Store × Order × Task) :=
  match toInt orderCode with
  | none => .error "order code must be numeric"
  | some code =>
    match toInt taskIndex with
    | none => .error "task index must be a non-negative integer"
    | some idx =>
      if idx < 0 then .error "task index must be a non-negative integer"
      else
        match σ.orders.find? (fun o => o.code = code) with
        | none => .error "order not found"
        | some order =>
          match order.tasks with
          | none => .error "task not found"
          | some taskList =>
            match taskList[idx.toNat]? with
            | none => .error "task not found"
            | some prevTask =>
              let startAt := prevTask.init_task.getD now
              let nextTask := { prevTask with
                init_task := some startAt
                accepted_at := some (prevTask.accepted_at.getD startAt)
                status := some (match prevTask.status with
                  | some s => if s > 0 then s else 1
                  | none => 1) }
              let updatedTasks := taskList.set idx.toNat nextTask
              let updatedOrder := { order with
                tasks := some updatedTasks
                info := { order.info with
                  status := some (calculateOrderStatus (some updatedTasks))
                  fecha_inicio := some (order.info.fecha_inicio.getD startAt) } }
              .ok ({ σ with
                     orders := putOrderByCode updatedOrder σ.orders
                     ordersMeta := bumpMeta now
                       ("start task " ++ toString (idx + 1) ++ " order " ++ toString code)
                       σ.ordersMeta },
                   updatedOrder, nextTask)

structure CompleteUpdates where
  completed_by : Option Int := none
  accepted : Option Bool := none
  obs : Option String := none
  medicion : Option String := none
  rangoDesde : Option String := none
  rangoHasta : Option String := none

/-- `completeOrderTask` from APIdb.js.  `timestamp = nowISO()` always parses
back to `now`, so the duration end instant is `now`; the duration start is the
first parseable of task `init_task`, order `fecha_inicio`, else `now` itself.
`hs_reales` models `Number((diffMs/3600000).toFixed(2))` as decimal rounding
(half-up) of the exact rational to 2 places. -/
def completeOrderTask (σ : Store) (now : Int) (orderCode taskIndex : Option String)
    (updates : CompleteUpdates) : Except String (Store × Order × Task) :=
  match toInt orderCode with
  | none => .error "order code must be numeric"
  | some code =>
    match toInt taskIndex with
    | none => .error "task index must be a non-negative integer"
    | some idx =>
      if idx < 0 then .error "task index must be a non-negative integer"
      else
        match σ.orders.find? (fun o => o.code = code) with
        | none => .error "order not found"
        | some order =>
          match order.tasks with
          | none => .error "task not found"
          | some taskList =>
            match taskList[idx.toNat]? with
            | none => .error "task not found"
            | some prevTask =>
              let timestamp := now
              let durStart :=
                (prevTask.init_task.or order.info.fecha_inicio).getD timestamp
              let nextTask0 := { prevTask with
                status := some 2
                end_task := some timestamp
                completed_by :=
                  (updates.completed_by.or prevTask.completed_by).or order.info.asignado_a_code
                completed_at := some timestamp
                duration_seconds := some (max 0 (Int.fdiv (timestamp - durStart) 1000))
                accepted_protocol := some (updates.accepted.getD true)
                accepted_at := some (prevTask.accepted_at.getD timestamp) }
              let nextTask1 := match updates.obs with
                | some v => { nextTask0 with obs_assigned_to := some v }
                | none => nextTask0
              let nextTask2 := match updates.medicion with
                | some v => { nextTask1 with medicion_result := some v }
                | none => nextTask1
              let nextTask3 := match updates.rangoDesde with
                | some v => { nextTask2 with medicion_range_from := some v }
                | none => nextTask2
              let nextTask4 := match updates.rangoHasta with
                | some v => { nextTask3 with medicion_range_to := some v }
                | none => nextTask3
              let nextTask := if nextTask4.init_task = none then
                  { nextTask4 with init_task := some timestamp }
                else nextTask4
              let updatedTasks := taskList.set idx.toNat nextTask
              let hsStartDate :=
                ((order.info.fecha_inicio.or order.info.fecha_inicio).or
                  prevTask.init_task).or
                  ((taskList.find? (fun t => t.init_task.isSome)).bind Task.init_task)
              let hsEndDate := (some timestamp).or order.info.fecha_fin
              let hs : ℚ := match hsStartDate, hsEndDate with
                | some s, some e =>
                  let diffMs : Int := e - s
                  if diffMs ≤ 0 then 0
                  else (round ((diffMs : ℚ) / 3600000 * 100) : ℚ) / 100
                | _, _ => 0
              let updatedOrder := { order with
                tasks := some updatedTasks
                info := { order.info with
                  status := some (calculateOrderStatus (some updatedTasks))
                  fecha_fin := some timestamp
                  hs_reales := some hs } }
              .ok ({ σ with
                     orders := putOrderByCode updatedOrder σ.orders
                     ordersMeta := bumpMeta now
                       ("complete task " ++ toString (idx + 1) ++ " order " ++ toString code)
                       σ.ordersMeta },
                   updatedOrder, nextTask)

/-- `saveOrderChecklist` from APIdb.js; the checklist payload is opaque. -/
def saveOrderChecklist (σ : Store) (now : Int) (orderCode : Option String)
    (checklistData : Int) : Except String (Store × Order) :=
  match toInt orderCode with
  | none => .error "order code must be numeric"
  | some code =>
    match σ.orders.find? (fun o => o.code = code) with
    | none => .error "order not found"
    | some order =>
      let updatedOrder := { order with
        info := { order.info with checkListDict := some checklistData } }
      .ok ({ σ with
             orders := putOrderByCode updatedOrder σ.orders
             ordersMeta := bumpMeta now ("save checklist order " ++ toString code) σ.ordersMeta },
           updatedOrder)

/-! ### Expiration sweep -/

/-- The body of `markOrdersExpired`'s per-order loop: `none` when the order is
left untouched, `some (o', true)` when it is newly marked expired,
`some (o', false)` when a status-4 order is restored.  `Number(info.status)`
of a missing status is `NaN`, which compares equal to nothing. -/
def sweepOrderUpdate (today : Int) (evaluateAll : Bool) (codes : List Int) (order : Order) :
    Option (Order × Bool) :=
  let status := order.info.status
  if status = some 2 then none
  else if ¬(evaluateAll ∨ codes.contains order.code ∨ status = some 4) then none
  else
    let expired : Bool := match computeExpirationInfo (some order.info) with
      | some e => decide (today > e.expirationDate)
      | none => false
    if expired then
      if status ≠ some 4 then
        let base := { order.info with status := some (4 : Int) }
        let nextInfo := if obsFalsy base.obs_anulada then
            { base with obs_anulada := some (Obs.txt AUTO_EXPIRED_NOTE) }
          else base
        some ({ order with info := nextInfo }, true)
      else none
    else
      if status = some 4 then
        let nextStatus := calculateOrderStatus order.tasks
        let base := { order.info with status := some nextStatus }
        let nextInfo := if base.obs_anulada = some (Obs.txt AUTO_EXPIRED_NOTE) then
            { base with obs_anulada := none }
          else base
        some ({ order with info := nextInfo }, false)
      else none

/-- `markOrdersExpired` from APIdb.js.  `today` is `startOfChileDay(new Date())`
as a day index (the `null`-clock early return cannot fire for a live clock and
is dropped).  When at least one update exists, the `bulkPut` and the version
bump run in one `rw` transaction. -/
def markOrdersExpired (σ : Store) (now today : Int)
    (orderCodes : Option (List (Option String))) : Store × Nat × Nat :=
  let codesSet := (orderCodes.getD []).filterMap toInt
  let evaluateAll := codesSet.isEmpty
  if σ.orders.isEmpty then (σ, 0, 0)
  else
    let results := σ.orders.filterMap (sweepOrderUpdate today evaluateAll codesSet)
    let updates := results.map Prod.fst
    let expiredMarked := (results.filter (fun r => r.2 = true)).length
    let restored := (results.filter (fun r => r.2 = false)).length
    if updates.isEmpty then (σ, expiredMarked, restored)
    else
      ({ σ with
         orders := bulkPutOrders updates σ.orders
         ordersMeta := bumpMeta now
           ("revalidate expired orders (marked " ++ toString expiredMarked ++
            ", restored " ++ toString restored ++ ")") σ.ordersMeta },
       expiredMarked, restored)

/-! ### Snapshot sync engine -/

inductive ApplyResult where
  | applied
  | rejected (reason : String)
deriving DecidableEq

/-- `applyUsersSnapshot` from APIdb.js.  The sha256 signature comparison only
emits a console warning and never changes behaviour, so it is not modelled.
Incoming user codes are already integers, on which `toInt` is the identity. -/
def applyUsersSnapshot (σ : Store) (meta : Option Meta) (users : Option (List User)) :
    Store × ApplyResult :=
  let localVer := versionOfT σ.usersMeta
  let incomingVer := ((meta.map Meta.version)).getD 0
  if incomingVer ≤ localVer then (σ, .rejected "stale-version")
  else
    ({ σ with
       users := bulkPutUsers (users.getD []) []
       usersMeta := metaPut { version := incomingVer
                              changeLog := (meta.map Meta.changeLog).getD [] } σ.usersMeta },
     .applied)

/-- The `context` argument of `applyOrdersSnapshot`; `some` = the property is
present and non-null. -/
structure SnapshotContext where
  userCode : Option String := none
  speciality : Option String := none

/-- The shared body of both `scopedRemoval` branches: collect the codes of
existing in-scope rows absent from the incoming set and `bulkDelete` them. -/
def scopedRemovalCore (matchesScope : Order → Bool) (keepCodes : List Int)
    (table : List Order) : List Order :=
  let existing := table.filter matchesScope
  let toRemove := (existing.map Order.code).filter (fun c => ¬ keepCodes.contains c)
  table.filter (fun o => ¬ toRemove.contains o.code)

/-- The inner `scopedRemoval` of `applyOrdersSnapshot`.  The `userCode` branch
returns without falling through to `speciality`; a present but non-numeric
scope value removes nothing. -/
def scopedRemoval (ctx : SnapshotContext) (keepCodes : List Int) (table : List Order) :
    List Order :=
  match ctx.userCode with
  | some raw =>
    match toInt (some raw) with
    | none => table
    | some targetUser =>
      scopedRemovalCore (fun o => decide (o.info.asignado_a_code = some targetUser))
        keepCodes table
  | none =>
    match ctx.speciality with
    | none => table
    | some raw =>
      match toInt (some raw) with
      | none => table
      | some targetSpeciality =>
        scopedRemovalCore (fun o => decide (o.info.especialidadId = some targetSpeciality))
          keepCodes table

/-- The per-payload normalization of `applyOrdersSnapshot`: code resolution
only (unlike `bulkUpsertOrders`, no status recompute). -/
def normalizeSnapshotOrder (o : RawOrder) : Option Order :=
  match resolveOrderCode o with
  | none => none
  | some n => some { code := n, info := o.info, tasks := o.tasks }

/-- `applyOrdersSnapshot` from APIdb.js. -/
def applyOrdersSnapshot (σ : Store) (meta : Option Meta) (orders : Option (List RawOrder))
    (ctx : SnapshotContext) : Store × ApplyResult :=
  let localVer := versionOfT σ.ordersMeta
  let incomingVer := ((meta.map Meta.version)).getD 0
  if incomingVer ≤ localVer then (σ, .rejected "stale-version")
  else
    let normalized := (orders.getD []).filterMap normalizeSnapshotOrder
    let keepCodes := normalized.map Order.code
    let orders1 := scopedRemoval ctx keepCodes σ.orders
    let orders2 := if normalized.isEmpty then orders1 else bulkPutOrders normalized orders1
    ({ σ with
       orders := orders2
       ordersMeta := metaPut { version := incomingVer
                               changeLog := (meta.map Meta.changeLog).getD [] } σ.ordersMeta },
     .applied)

/-! ### Flexible date parsing (`sanitizeLegacyOffsetString` / `parseFlexibleDate`)

A timestamp-like string with a numeric UTC offset is represented structurally:
its date-time portion as the instant `baseMs` that portion denotes when read
as UTC, and the offset as sign, two-digit hour, minute digit run, and optional
fractional digit run.  The sanitizer's regular expression
`([+-]\d{2}):([0-9]+)(\.[0-9]+)` only matches when a fractional part follows
the minutes, which is what the structured guard mirrors. -/

structure StampStr where
  baseMs : Int
  signNeg : Bool
  offHH : Nat
  minDigits : List (Fin 10)
  frac : Option (List (Fin 10)) := none
deriving DecidableEq

def digitsVal (ds : List (Fin 10)) : Nat := ds.foldl (fun acc d => acc * 10 + d.val) 0

/-- `padNumber(n, 2)` for `n ≤ 99`: the two decimal digits. -/
def twoDigits (n : Nat) : List (Fin 10) :=
  [⟨n / 10 % 10, Nat.mod_lt _ (by norm_num)⟩, ⟨n % 10, Nat.mod_lt _ (by norm_num)⟩]

/-- `sanitizeLegacyOffsetString` from APIdb.js: when and only when the offset
minutes carry a fractional part, truncate (`Math.trunc`) and clamp the minute
value into `[0, 59]`, re-render it as two digits, and drop the fraction;
otherwise (no dot after the minutes) the guard regex fails and the string is
returned unchanged. -/
def sanitizeLegacyOffsetString (s : StampStr) : StampStr :=
  match s.frac with
  | none => s
  | some _ =>
    let minutesTrunc := digitsVal s.minDigits
    let normalizedMinutes := min 59 (max 0 minutesTrunc)
    { s with minDigits := twoDigits normalizedMinutes, frac := none }

/-- Modelled from the spec: the ECMAScript `new Date(string)` builtin on an
offset timestamp string (not repository code).  ISO-8601 offsets require
exactly two minute digits, a value of at most 59, and no fractional minute
component; a valid string denotes `baseMs` shifted by the offset. -/
def jsDateParseStamp (s : StampStr) : Option Int :=
  if s.frac = none ∧ s.minDigits.length = 2 ∧ digitsVal s.minDigits ≤ 59 then
    let offsetMinutes : Int := (s.offHH * 60 + digitsVal s.minDigits : Nat)
    some (s.baseMs - (if s.signNeg then -offsetMinutes else offsetMinutes) * 60000)
  else none

/-- A JS value handed to `parseFlexibleDate`: a valid `Date`, a finite number,
a trimmed non-empty offset timestamp string, or anything else (invalid dates,
non-timestamp strings, `null`, ...). -/
inductive JSVal where
  | date (ms : Int)
  | num (ms : Int)
  | str (s : StampStr)
  | other
deriving DecidableEq

/-- Modelled from the spec: `parseChileDateString` (from the missing
`@/utils/timezone` module) parses Chile calendar date strings; on an offset
timestamp string or a non-string it yields no instant, which is the fallback
behaviour `parseFlexibleDate` relies on. -/
def parseChileDateStringF : JSVal → Option Int
  | _ => none

/-- `parseFlexibleDate` from APIdb.js: pass valid dates and finite numbers
through; for a string, try `new Date` on the trimmed value and then on the
sanitized value when sanitizing changed it; finally fall back to
`parseChileDateString`, and return `null` when everything fails. -/
def parseFlexibleDate (v : JSVal) : Option Int :=
  match v with
  | .date ms => some ms
  | .num ms => some ms
  | .str s =>
    let sanitized := sanitizeLegacyOffsetString s
    match jsDateParseStamp s with
    | some ms => some ms
    | none =>
      match (if sanitized ≠ s then jsDateParseStamp sanitized else none) with
      | some ms => some ms
      | none => parseChileDateStringF (.str sanitized)
  | .other => parseChileDateStringF .other

/-! ### Mutation sequences

One constructor per always-version-bumping store mutation (the expiration
sweep bumps only when it writes and is treated separately). -/

inductive Mutation where
  | addU (inp : AddUserInput)
  | updU (code : Option String) (patch : UserPatch)
  | delU (code : Option String)
  | bulkUps (raws : List RawOrder)
  | cancelO (code reason detail : Option String)
  | startT (code idx : Option String)
  | completeT (code idx : Option String) (upd : CompleteUpdates)
  | saveCk (code : Option String) (payload : Int)

def applyMutation (now : Int) (σ : Store) : Mutation → Except String Store
  | .addU inp => addUser σ now inp
  | .updU code patch => updateUser σ now code patch
  | .delU code => deleteUser σ now code
  | .bulkUps raws => .ok (bulkUpsertOrders σ now raws).1
  | .cancelO code reason detail => (cancelOrder σ now code reason detail).map Prod.fst
  | .startT code idx => (startOrderTask σ now code idx).map Prod.fst
  | .completeT code idx upd => (completeOrderTask σ now code idx upd).map Prod.fst
  | .saveCk code payload => (saveOrderChecklist σ now code payload).map Prod.fst

def runMutations (now : Int) : Store → List Mutation → Except String Store
  | σ, [] => .ok σ
  | σ, m :: rest =>
    match applyMutation now σ m with
    | .error e => .error e
    | .ok σ' => runMutations now σ' rest

/-- Which meta family a mutation bumps. -/
def isUsersMutation : Mutation → Bool
  | .addU _ | .updU _ _ | .delU _ => true
  | _ => false

/-! ### Meta-table lemmas -/

theorem exists_latestMeta_of_mem (t : List Meta) (x : Meta) (hx : x ∈ t) :
    ∃ l, latestMeta t = some l ∧ x.version ≤ l.version := by
  induction t with
  | nil => cases hx
  | cons a rest ih =>
    rcases List.mem_cons.mp hx with h | h
    · subst h
      cases hr : latestMeta rest with
      | none => exact ⟨x, by simp [latestMeta, hr], le_refl _⟩
      | some b =>
        by_cases hv : x.version > b.version
        · exact ⟨x, by simp [latestMeta, hr, hv], le_refl _⟩
        · exact ⟨b, by simp [latestMeta, hr, hv], by omega⟩
    · obtain ⟨b, hb, hle⟩ := ih h
      by_cases hv : a.version > b.version
      · exact ⟨a, by simp [latestMeta, hb, hv], by omega⟩
      · exact ⟨b, by simp [latestMeta, hb, hv], hle⟩

theorem version_le_versionOfT (t : List Meta) (x : Meta) (hx : x ∈ t) :
    x.version ≤ versionOfT t := by
  obtain ⟨l, hl, hle⟩ := exists_latestMeta_of_mem t x hx
  unfold versionOfT
  rw [hl]
  simpa using hle

theorem latestMeta_append_single (t : List Meta) (m : Meta)
    (h : ∀ x ∈ t, x.version < m.version) : latestMeta (t ++ [m]) = some m := by
  induction t with
  | nil => simp [latestMeta]
  | cons a rest ih =>
    have ha : a.version < m.version := h a (by simp)
    have hrest := ih (fun x hx => h x (by simp [hx]))
    show latestMeta (a :: (rest ++ [m])) = some m
    unfold latestMeta
    rw [hrest]
    simp only []
    rw [if_neg (by omega)]

theorem latestMeta_metaPut_fresh (t : List Meta) (m : Meta)
    (h : ∀ x ∈ t, x.version < m.version) : latestMeta (metaPut m t) = some m := by
  unfold metaPut
  have hfilter : t.filter (fun x => x.version ≠ m.version) = t := by
    apply List.filter_eq_self.mpr
    intro a ha
    have := h a ha
    simp
    omega
  rw [hfilter]
  exact latestMeta_append_single t m h

theorem fresh_of_gt_versionOfT (t : List Meta) (v : Int) (h : versionOfT t < v) :
    ∀ x ∈ t, x.version < v := by
  intro x hx
  have := version_le_versionOfT t x hx
  omega

theorem latestMeta_bumpMeta (now : Int) (reason : String) (t : List Meta) :
    latestMeta (bumpMeta now reason t) =
      some { version := versionOfT t + 1
             changeLog := ((latestMeta t).map Meta.changeLog).getD [] ++
               [toString now ++ " - " ++ reason] } := by
  unfold bumpMeta
  cases ht : latestMeta t with
  | none =>
    have hv : versionOfT t = 0 := by unfold versionOfT; rw [ht]; rfl
    simp only [ht, hv, Option.map_none, Option.getD_none, List.nil_append, zero_add]
    exact latestMeta_metaPut_fresh t _
      (fresh_of_gt_versionOfT t _ (by rw [hv]; norm_num))
  | some l =>
    have hv : versionOfT t = l.version := by unfold versionOfT; rw [ht]; rfl
    simp only [ht, hv, Option.map_some, Option.getD_some]
    exact latestMeta_metaPut_fresh t _
      (fresh_of_gt_versionOfT t _ (by rw [hv]; exact lt_add_one l.version))

theorem versionOfT_bumpMeta (now : Int) (reason : String) (t : List Meta) :
    versionOfT (bumpMeta now reason t) = versionOfT t + 1 := by
  unfold versionOfT
  rw [latestMeta_bumpMeta]
  rfl

theorem logLenT_bumpMeta (now : Int) (reason : String) (t : List Meta) :
    logLenT (bumpMeta now reason t) = logLenT t + 1 := by
  unfold logLenT
  rw [latestMeta_bumpMeta]
  cases ht : latestMeta t <;> simp [ht]

theorem versionOfT_metaPut_fresh (t : List Meta) (m : Meta)
    (h : versionOfT t < m.version) : versionOfT (metaPut m t) = m.version := by
  unfold versionOfT
  rw [latestMeta_metaPut_fresh t m (fresh_of_gt_versionOfT t _ h)]
  rfl

/-! ### Keyed-table membership lemmas -/

theorem mem_putByKey_self (key : α → Int) (r : α) (t : List α) : r ∈ putByKey key r t := by
  unfold putByKey
  by_cases h : t.any (fun x => key x = key r)
  · simp only [h, if_true]
    obtain ⟨x, hx, hkey⟩ := List.any_eq_true.mp h
    refine List.mem_map.mpr ⟨x, hx, ?_⟩
    simp only [decide_eq_true_eq] at hkey
    simp [hkey]
  · simp [h]

theorem mem_putByKey_of_ne (key : α → Int) (r x : α) (t : List α)
    (hx : x ∈ t) (hne : key x ≠ key r) : x ∈ putByKey key r t := by
  unfold putByKey
  by_cases h : t.any (fun y => key y = key r)
  · simp only [h, if_true]
    refine List.mem_map.mpr ⟨x, hx, ?_⟩
    simp [hne]
  · simp [h, hx]

theorem mem_bulkPutByKey_of_not_mem (key : α → Int) (rows : List α) (t : List α) (x : α)
    (hx : x ∈ t) (h : key x ∉ rows.map key) : x ∈ bulkPutByKey key rows t := by
  induction rows generalizing t with
  | nil => simpa [bulkPutByKey]
  | cons a rest ih =>
    have hne : key x ≠ key a := by
      intro hcontra
      exact h (by simp [hcontra])
    have hx1 : x ∈ putByKey key a t := mem_putByKey_of_ne key a x t hx hne
    have hrest : key x ∉ rest.map key := fun hc => h (by simp [hc])
    exact ih (putByKey key a t) hx1 hrest

theorem mem_bulkPutByKey_of_mem_rows (key : α → Int) (rows : List α) (t : List α) (r : α)
    (hnodup : (rows.map key).Nodup) (hr : r ∈ rows) : r ∈ bulkPutByKey key rows t := by
  induction rows generalizing t with
  | nil => cases hr
  | cons a rest ih =>
    have hnd : key a ∉ rest.map key ∧ (rest.map key).Nodup := by
      rw [List.map_cons, List.nodup_cons] at hnodup
      exact hnodup
    rcases List.mem_cons.mp hr with h | h
    · subst h
      have hself : r ∈ putByKey key r t := mem_putByKey_self key r t
      exact mem_bulkPutByKey_of_not_mem key rest (putByKey key r t) r hself hnd.1
    · exact ih (putByKey key a t) hnd.2 h

/-- Keys of a key-preserving `filterMap` form a sublist of the table's keys. -/
theorem filterMap_map_key_sublist (key : α → Int) (g : α → Option α) (l : List α)
    (hg : ∀ x r, g x = some r → key r = key x) :
    ((l.filterMap g).map key).Sublist (l.map key) := by
  induction l with
  | nil => simp
  | cons a rest ih =>
    cases ha : g a with
    | none => simpa [List.filterMap_cons, ha] using ih.cons (key a)
    | some r =>
      have : key r = key a := hg a r ha
      simpa [List.filterMap_cons, ha, this] using ih.cons₂ (key a)

theorem key_not_mem_filterMap_of_none (key : α → Int) (g : α → Option α) (l : List α) (x : α)
    (hg : ∀ y r, g y = some r → key r = key y)
    (hnodup : (l.map key).Nodup) (hx : x ∈ l) (hnone : g x = none) :
    key x ∉ (l.filterMap g).map key := by
  induction l with
  | nil => cases hx
  | cons a rest ih =>
    have hnd : key a ∉ rest.map key ∧ (rest.map key).Nodup := by
      rw [List.map_cons, List.nodup_cons] at hnodup
      exact hnodup
    rcases List.mem_cons.mp hx with h | h
    · subst h
      rw [List.filterMap_cons, hnone]
      intro hc
      obtain ⟨r, hr, hkr⟩ := List.mem_map.mp hc
      obtain ⟨y, hy, hgy⟩ := List.mem_filterMap.mp hr
      have : key r = key y := hg y r hgy
      exact hnd.1 (by rw [← hkr, this]; exact List.mem_map_of_mem key hy)
    · rw [List.filterMap_cons]
      cases ha : g a with
      | none => exact ih hnd.2 h
      | some r =>
        have hra : key r = key a := hg a r ha
        have hxa : key x ≠ key r := by
          rw [hra]
          intro hc
          exact hnd.1 (hc ▸ List.mem_map_of_mem key h)
        simp only [List.map_cons, List.mem_cons]
        push_neg
        exact ⟨hxa, ih hnd.2 h⟩

/-! ### Success-shape lemmas for the mutating operations -/

theorem addUser_ok (σ : Store) (now : Int) (inp : AddUserInput) (σ' : Store)
    (h : addUser σ now inp = .ok σ') :
    (∃ r, σ'.usersMeta = bumpMeta now r σ.usersMeta) ∧
      σ'.orders = σ.orders ∧ σ'.ordersMeta = σ.ordersMeta := by
  simp only [addUser] at h
  split at h
  · exact Except.noConfusion h
  · split_ifs at h <;> try exact Except.noConfusion h
    all_goals injection h with h
    all_goals exact ⟨⟨_, by rw [← h]⟩, by rw [← h], by rw [← h]⟩

def usersVersion (σ : Store) : Int := versionOfT σ.usersMeta
def ordersVersion (σ : Store) : Int := versionOfT σ.ordersMeta
def usersLogLen (σ : Store) : Nat := logLenT σ.usersMeta
def ordersLogLen (σ : Store) : Nat := logLenT σ.ordersMeta

theorem updateUser_ok (σ : Store) (now : Int) (code : Option String) (patch : UserPatch)
    (σ' : Store) (h : updateUser σ now code patch = .ok σ') :
    (∃ r, σ'.usersMeta = bumpMeta now r σ.usersMeta) ∧
      σ'.orders = σ.orders ∧ σ'.ordersMeta = σ.ordersMeta := by
  simp only [updateUser] at h
  iterate 12 (all_goals try split at h)
  all_goals try exact Except.noConfusion h
  all_goals injection h with h
  all_goals exact ⟨⟨_, by rw [← h]⟩, by rw [← h], by rw [← h]⟩

theorem deleteUser_ok (σ : Store) (now : Int) (code : Option String)
    (σ' : Store) (h : deleteUser σ now code = .ok σ') :
    (∃ r, σ'.usersMeta = bumpMeta now r σ.usersMeta) ∧
      σ'.orders = σ.orders ∧ σ'.ordersMeta = σ.ordersMeta := by
  simp only [deleteUser] at h
  iterate 4 (all_goals try split at h)
  all_goals try exact Except.noConfusion h
  all_goals injection h with h
  all_goals exact ⟨⟨_, by rw [← h]⟩, by rw [← h], by rw [← h]⟩

theorem bulkUpsertOrders_shape (σ : Store) (now : Int) (raws : List RawOrder) :
    (bulkUpsertOrders σ now raws).1.ordersMeta =
        bumpMeta now ("bulk upsert orders (" ++ toString raws.length ++ ")") σ.ordersMeta ∧
      (bulkUpsertOrders σ now raws).1.users = σ.users ∧
      (bulkUpsertOrders σ now raws).1.usersMeta = σ.usersMeta := by
  simp only [bulkUpsertOrders, bulkUpsertOrdersPhase1]
  split <;> simp

theorem cancelOrder_ok (σ : Store) (now : Int) (orderCode reason detail : Option String)
    (p : Store × Order) (h : cancelOrder σ now orderCode reason detail = .ok p) :
    (∃ r, p.1.ordersMeta = bumpMeta now r σ.ordersMeta) ∧
      p.1.users = σ.users ∧ p.1.usersMeta = σ.usersMeta := by
  simp only [cancelOrder] at h
  iterate 8 (all_goals try split at h)
  all_goals try exact Except.noConfusion h
  all_goals injection h with h
  all_goals exact ⟨⟨_, by rw [← h]⟩, by rw [← h], by rw [← h]⟩

theorem startOrderTask_ok (σ : Store) (now : Int) (orderCode taskIndex : Option String)
    (p : Store × Order × Task) (h : startOrderTask σ now orderCode taskIndex = .ok p) :
    (∃ r, p.1.ordersMeta = bumpMeta now r σ.ordersMeta) ∧
      p.1.users = σ.users ∧ p.1.usersMeta = σ.usersMeta := by
  simp only [startOrderTask] at h
  iterate 10 (all_goals try split at h)
  all_goals try exact Except.noConfusion h
  all_goals injection h with h
  all_goals exact ⟨⟨_, by rw [← h]⟩, by rw [← h], by rw [← h]⟩

theorem completeOrderTask_ok (σ : Store) (now : Int) (orderCode taskIndex : Option String)
    (updates : CompleteUpdates) (p : Store × Order × Task)
    (h : completeOrderTask σ now orderCode taskIndex updates = .ok p) :
    (∃ r, p.1.ordersMeta = bumpMeta now r σ.ordersMeta) ∧
      p.1.users = σ.users ∧ p.1.usersMeta = σ.usersMeta := by
  simp only [completeOrderTask] at h
  iterate 14 (all_goals try split at h)
  all_goals try exact Except.noConfusion h
  all_goals injection h with h
  all_goals exact ⟨⟨_, by rw [← h]⟩, by rw [← h], by rw [← h]⟩

theorem saveOrderChecklist_ok (σ : Store) (now : Int) (orderCode : Option String)
    (payload : Int) (p : Store × Order) (h : saveOrderChecklist σ now orderCode payload = .ok p) :
    (∃ r, p.1.ordersMeta = bumpMeta now r σ.ordersMeta) ∧
      p.1.users = σ.users ∧ p.1.usersMeta = σ.usersMeta := by
  simp only [saveOrderChecklist] at h
  iterate 6 (all_goals try split at h)
  all_goals try exact Except.noConfusion h
  all_goals injection h with h
  all_goals exact ⟨⟨_, by rw [← h]⟩, by rw [← h], by rw [← h]⟩

/-- The sweep either leaves the store untouched (no updates) or performs its
`bulkPut` together with exactly one version bump in one transaction. -/
theorem markOrdersExpired_shape (σ : Store) (now today : Int)
    (orderCodes : Option (List (Option String))) :
    (markOrdersExpired σ now today orderCodes).1 = σ ∨
      ((∃ r, (markOrdersExpired σ now today orderCodes).1.ordersMeta =
          bumpMeta now r σ.ordersMeta) ∧
        (markOrdersExpired σ now today orderCodes).1.users = σ.users ∧
        (markOrdersExpired σ now today orderCodes).1.usersMeta = σ.usersMeta) := by
  simp only [markOrdersExpired]
  split
  · left; rfl
  · split
    · left; rfl
    · right
      exact ⟨⟨_, rfl⟩, rfl, rfl⟩

theorem applyMutation_ok (now : Int) (σ : Store) (m : Mutation) (σ' : Store)
    (h : applyMutation now σ m = .ok σ') :
    if isUsersMutation m then
      usersVersion σ' = usersVersion σ + 1 ∧ usersLogLen σ' = usersLogLen σ + 1 ∧
        σ'.ordersMeta = σ.ordersMeta
    else
      ordersVersion σ' = ordersVersion σ + 1 ∧ ordersLogLen σ' = ordersLogLen σ + 1 ∧
        σ'.usersMeta = σ.usersMeta := by
  cases m with
  | addU inp =>
    obtain ⟨⟨r, hr⟩, _, ho⟩ := addUser_ok σ now inp σ' h
    simp only [isUsersMutation, if_true, usersVersion, usersLogLen, hr, ho,
      versionOfT_bumpMeta, logLenT_bumpMeta]
    exact ⟨trivial, trivial, trivial⟩
  | updU code patch =>
    obtain ⟨⟨r, hr⟩, _, ho⟩ := updateUser_ok σ now code patch σ' h
    simp only [isUsersMutation, if_true, usersVersion, usersLogLen, hr, ho,
      versionOfT_bumpMeta, logLenT_bumpMeta]
    exact ⟨trivial, trivial, trivial⟩
  | delU code =>
    obtain ⟨⟨r, hr⟩, _, ho⟩ := deleteUser_ok σ now code σ' h
    simp only [isUsersMutation, if_true, usersVersion, usersLogLen, hr, ho,
      versionOfT_bumpMeta, logLenT_bumpMeta]
    exact ⟨trivial, trivial, trivial⟩
  | bulkUps raws =>
    simp only [applyMutation] at h
    injection h with h
    obtain ⟨hm, _, hu⟩ := bulkUpsertOrders_shape σ now raws
    rw [h] at hm hu
    simp only [isUsersMutation, if_false, ordersVersion, ordersLogLen, hm, hu,
      versionOfT_bumpMeta, logLenT_bumpMeta]
    exact ⟨trivial, trivial, trivial⟩
  | cancelO code reason detail =>
    simp only [applyMutation] at h
    cases hc : cancelOrder σ now code reason detail with
    | error e => rw [hc] at h; exact Except.noConfusion h
    | ok p =>
      rw [hc] at h
      injection h with h
      obtain ⟨⟨r, hr⟩, _, hu⟩ := cancelOrder_ok σ now code reason detail p hc
      rw [h] at hr hu
      simp only [isUsersMutation, if_false, ordersVersion, ordersLogLen, hr, hu,
        versionOfT_bumpMeta, logLenT_bumpMeta]
      exact ⟨trivial, trivial, trivial⟩
  | startT code idx =>
    simp only [applyMutation] at h
    cases hc : startOrderTask σ now code idx with
    | error e => rw [hc] at h; exact Except.noConfusion h
    | ok p =>
      rw [hc] at h
      injection h with h
      obtain ⟨⟨r, hr⟩, _, hu⟩ := startOrderTask_ok σ now code idx p hc
      rw [h] at hr hu
      simp only [isUsersMutation, if_false, ordersVersion, ordersLogLen, hr, hu,
        versionOfT_bumpMeta, logLenT_bumpMeta]
      exact ⟨trivial, trivial, trivial⟩
  | completeT code idx upd =>
    simp only [applyMutation] at h
    cases hc : completeOrderTask σ now code idx upd with
    | error e => rw [hc] at h; exact Except.noConfusion h
    | ok p =>
      rw [hc] at h
      injection h with h
      obtain ⟨⟨r, hr⟩, _, hu⟩ := completeOrderTask_ok σ now code idx upd p hc
      rw [h] at hr hu
      simp only [isUsersMutation, if_false, ordersVersion, ordersLogLen, hr, hu,
        versionOfT_bumpMeta, logLenT_bumpMeta]
      exact ⟨trivial, trivial, trivial⟩
  | saveCk code payload =>
    simp only [applyMutation] at h
    cases hc : saveOrderChecklist σ now code payload with
    | error e => rw [hc] at h; exact Except.noConfusion h
    | ok p =>
      rw [hc] at h
      injection h with h
      obtain ⟨⟨r, hr⟩, _, hu⟩ := saveOrderChecklist_ok σ now code payload p hc
      rw [h] at hr hu
      simp only [isUsersMutation, if_false, ordersVersion, ordersLogLen, hr, hu,
        versionOfT_bumpMeta, logLenT_bumpMeta]
      exact ⟨trivial, trivial, trivial⟩

theorem runMutations_versions (now : Int) (ms : List Mutation) :
    ∀ σ σ', runMutations now σ ms = .ok σ' →
      usersVersion σ' = usersVersion σ + (ms.filter isUsersMutation).length ∧
        ordersVersion σ' = ordersVersion σ + (ms.filter (fun m => ¬ isUsersMutation m)).length := by
  induction ms with
  | nil =>
    intro σ σ' h
    simp only [runMutations] at h
    injection h with h
    subst h
    simp
  | cons m rest ih =>
    intro σ σ' h
    simp only [runMutations] at h
    cases hc : applyMutation now σ m with
    | error e => rw [hc] at h; exact Except.noConfusion h
    | ok σ1 =>
      rw [hc] at h
      have hstep := applyMutation_ok now σ m σ1 hc
      have hrest := ih σ1 σ' h
      by_cases hm : isUsersMutation m
      · rw [if_pos hm] at hstep
        constructor
        · rw [hrest.1, hstep.1]
          simp [List.filter_cons, hm]
          omega
        · rw [hrest.2]
          have : ordersVersion σ1 = ordersVersion σ := by
            unfold ordersVersion versionOfT
            rw [hstep.2.2]
          rw [this]
          simp [List.filter_cons, hm]
      · rw [if_neg hm] at hstep
        constructor
        · rw [hrest.1]
          have : usersVersion σ1 = usersVersion σ := by
            unfold usersVersion versionOfT
            rw [hstep.2.2]
          rw [this]
          simp [List.filter_cons, hm]
        · rw [hrest.2, hstep.1]
          simp [List.filter_cons, hm]
          omega

/-! ### Sweep membership lemmas -/

theorem sweepOrderUpdate_code (today : Int) (ea : Bool) (codes : List Int) (o : Order)
    (p : Order × Bool) (h : sweepOrderUpdate today ea codes o = some p) : p.1.code = o.code := by
  simp only [sweepOrderUpdate] at h
  split_ifs at h <;> try exact Option.noConfusion h
  all_goals injection h with h
  all_goals rw [← h]

/-- The map-then-project form of the sweep's update list. -/
def sweepUpdates (today : Int) (orders : List Order) : List Order :=
  orders.filterMap (fun o => (sweepOrderUpdate today true [] o).map Prod.fst)

theorem sweepUpdates_code_preserving (today : Int) :
    ∀ y r, (fun z => (sweepOrderUpdate today true [] z).map Prod.fst) y = some r →
      Order.code r = Order.code y := by
  intro y r hy
  simp only at hy
  cases hmap : sweepOrderUpdate today true [] y with
  | none => rw [hmap] at hy; exact Option.noConfusion hy
  | some q =>
    rw [hmap] at hy
    injection hy with hy
    rw [← hy]
    exact sweepOrderUpdate_code today true [] y q hmap

theorem markOrdersExpired_updates (σ : Store) (now today : Int) :
    ((markOrdersExpired σ now today none).1 = σ ∧
        (sweepUpdates today σ.orders = [] ∨ σ.orders = [])) ∨
      (markOrdersExpired σ now today none).1.orders =
        bulkPutOrders (sweepUpdates today σ.orders) σ.orders := by
  simp only [markOrdersExpired, Option.getD_none, List.filterMap_nil, List.isEmpty_nil]
  split
  · rename_i hempty
    rw [List.isEmpty_eq_true] at hempty
    exact Or.inl ⟨rfl, Or.inr hempty⟩
  · split
    · rename_i hupd
      rw [List.isEmpty_eq_true] at hupd
      refine Or.inl ⟨rfl, Or.inl ?_⟩
      unfold sweepUpdates
      rw [← List.map_filterMap]
      exact hupd
    · right
      simp [sweepUpdates, List.map_filterMap]

theorem markOrdersExpired_mem_of_none (σ : Store) (now today : Int)
    (hnodup : (σ.orders.map Order.code).Nodup) (o : Order) (ho : o ∈ σ.orders)
    (hnone : sweepOrderUpdate today true [] o = none) :
    o ∈ (markOrdersExpired σ now today none).1.orders := by
  rcases markOrdersExpired_updates σ now today with ⟨h, _⟩ | h
  · rw [h]; exact ho
  · rw [h]
    apply mem_bulkPutByKey_of_not_mem Order.code _ _ o ho
    apply key_not_mem_filterMap_of_none Order.code _ _ o
      (sweepUpdates_code_preserving today) hnodup ho
    simp [hnone]

theorem markOrdersExpired_mem_of_some (σ : Store) (now today : Int)
    (hnodup : (σ.orders.map Order.code).Nodup) (o : Order) (p : Order × Bool)
    (ho : o ∈ σ.orders) (hsome : sweepOrderUpdate today true [] o = some p) :
    p.1 ∈ (markOrdersExpired σ now today none).1.orders := by
  have hmem : p.1 ∈ sweepUpdates today σ.orders :=
    List.mem_filterMap.mpr ⟨o, ho, by simp [hsome]⟩
  rcases markOrdersExpired_updates σ now today with ⟨_, hor | hor⟩ | h
  · rw [hor] at hmem; cases hmem
  · rw [hor] at ho; cases ho
  · rw [h]
    apply mem_bulkPutByKey_of_mem_rows Order.code _ _ _ _ hmem
    exact (filterMap_map_key_sublist Order.code _ σ.orders
      (sweepUpdates_code_preserving today)).nodup hnodup

/-! ### Origin and removal lemmas -/

theorem mem_of_mem_putByKey (key : α → Int) (r x : α) (t : List α)
    (hx : x ∈ putByKey key r t) : x ∈ t ∨ x = r := by
  unfold putByKey at hx
  by_cases h : t.any (fun y => key y = key r)
  · rw [if_pos h] at hx
    obtain ⟨y, hy, hxy⟩ := List.mem_map.mp hx
    by_cases hk : key y = key r
    · right; rw [if_pos hk] at hxy; exact hxy.symm
    · left; rw [if_neg hk] at hxy; exact hxy ▸ hy
  · rw [if_neg h] at hx
    rcases List.mem_append.mp hx with h1 | h1
    · left; exact h1
    · right; simpa using h1

theorem mem_of_mem_bulkPutByKey (key : α → Int) (rows t : List α) (x : α)
    (hx : x ∈ bulkPutByKey key rows t) : x ∈ t ∨ x ∈ rows := by
  induction rows generalizing t with
  | nil => left; simpa [bulkPutByKey] using hx
  | cons a rest ih =>
    rcases ih (putByKey key a t) hx with h | h
    · rcases mem_of_mem_putByKey key a x t h with h1 | h1
      · left; exact h1
      · right; simp [h1]
    · right; simp [h]

theorem nodup_key_inj (key : α → Int) (l : List α) (hnodup : (l.map key).Nodup)
    (x y : α) (hx : x ∈ l) (hy : y ∈ l) (hkey : key x = key y) : x = y := by
  have := List.inj_on_of_nodup_map hnodup
  exact this hx hy hkey

/-- An in-scope row whose code is absent from the incoming set is deleted:
nothing with its code survives the removal. -/
theorem scopedRemovalCore_drops (matchesScope : Order → Bool) (keep : List Int)
    (table : List Order) (o : Order) (ho : o ∈ table) (hm : matchesScope o = true)
    (hk : ¬ keep.contains o.code) :
    ∀ y ∈ scopedRemovalCore matchesScope keep table, y.code ≠ o.code := by
  intro y hy
  unfold scopedRemovalCore at hy
  have hyfilter := List.mem_filter.mp hy
  intro hcontra
  have hrem : o.code ∈ ((table.filter matchesScope).map Order.code).filter
      (fun c => ¬ keep.contains c) := by
    apply List.mem_filter.mpr
    constructor
    · exact List.mem_map_of_mem Order.code (List.mem_filter.mpr ⟨ho, hm⟩)
    · simpa using hk
  have := hyfilter.2
  rw [hcontra] at this
  simp only [decide_eq_true_eq] at this
  exact this (List.elem_eq_true_of_mem hrem)

/-- An out-of-scope row survives the removal (unique codes). -/
theorem scopedRemovalCore_keeps_unmatched (matchesScope : Order → Bool) (keep : List Int)
    (table : List Order) (hnodup : (table.map Order.code).Nodup) (o : Order)
    (ho : o ∈ table) (hm : matchesScope o = false) :
    o ∈ scopedRemovalCore matchesScope keep table := by
  unfold scopedRemovalCore
  apply List.mem_filter.mpr
  refine ⟨ho, ?_⟩
  simp only [decide_eq_true_eq]
  intro hrem
  obtain ⟨hmem, _⟩ := List.mem_filter.mp (List.mem_of_elem_eq_true hrem)
  obtain ⟨y, hy, hycode⟩ := List.mem_map.mp hmem
  obtain ⟨hyt, hym⟩ := List.mem_filter.mp hy
  have : y = o := nodup_key_inj Order.code table hnodup y o hyt ho hycode
  rw [this] at hym
  rw [hym] at hm
  exact Bool.noConfusion hm

/-- A row whose code the incoming set keeps survives the removal. -/
theorem scopedRemovalCore_keeps_kept (matchesScope : Order → Bool) (keep : List Int)
    (table : List Order) (o : Order) (ho : o ∈ table) (hk : keep.contains o.code) :
    o ∈ scopedRemovalCore matchesScope keep table := by
  unfold scopedRemovalCore
  apply List.mem_filter.mpr
  refine ⟨ho, ?_⟩
  simp only [decide_eq_true_eq]
  intro hrem
  obtain ⟨_, hnk⟩ := List.mem_filter.mp (List.mem_of_elem_eq_true hrem)
  simp only [decide_eq_true_eq] at hnk
  exact hnk (by simpa using hk)

theorem mem_scopedRemovalCore (matchesScope : Order → Bool) (keep : List Int)
    (table : List Order) (y : Order) (hy : y ∈ scopedRemovalCore matchesScope keep table) :
    y ∈ table := (List.mem_filter.mp hy).1

/-! ### Sweep characterization -/

theorem calculateOrderStatus_cases (t : Option (List Task)) :
    calculateOrderStatus t = 0 ∨ calculateOrderStatus t = 1 ∨ calculateOrderStatus t = 2 := by
  cases t with
  | none => left; rfl
  | some ts =>
    simp only [calculateOrderStatus]
    split_ifs <;> simp

/-- On the evaluate-all sweep, the per-order loop body in closed form for
orders not at status 2. -/
theorem sweepOrderUpdate_eval (today : Int) (o : Order) (hst : o.info.status ≠ some 2) :
    sweepOrderUpdate today true [] o =
      (if isOrderExpired o today = true then
        (if o.info.status ≠ some 4 then
          some ({ o with info :=
            (if obsFalsy o.info.obs_anulada = true then
              { o.info with status := some 4, obs_anulada := some (Obs.txt AUTO_EXPIRED_NOTE) }
            else { o.info with status := some 4 }) }, true)
        else none)
      else
        (if o.info.status = some 4 then
          some ({ o with info :=
            (if o.info.obs_anulada = some (Obs.txt AUTO_EXPIRED_NOTE) then
              { o.info with status := some (calculateOrderStatus o.tasks), obs_anulada := none }
            else { o.info with status := some (calculateOrderStatus o.tasks) }) }, false)
        else none)) := by
  simp only [sweepOrderUpdate, isOrderExpired]
  rw [if_neg hst, if_neg (by simp)]
  rcases hc : computeExpirationInfo (some o.info) with _ | e <;> simp only [hc]

/-! ### C4 -/

/-- C4: the derived order status is 2 exactly when every task has status 2
(vacuously on the empty list); else 1 exactly when some task has status 1 or
2; else 0.  The derivation is a pure function of the task list, so
recomputing it on an unchanged list yields the same status. -/
theorem c4_status_derivation (ts : List Task) :
    (calculateOrderStatus (some ts) = 2 ↔ ∀ t ∈ ts, t.status = some 2) ∧
    (calculateOrderStatus (some ts) = 1 ↔
      ¬ (∀ t ∈ ts, t.status = some 2) ∧ ∃ t ∈ ts, t.status = some 1 ∨ t.status = some 2) ∧
    (calculateOrderStatus (some ts) = 0 ↔
      ¬ (∀ t ∈ ts, t.status = some 2) ∧
        ¬ ∃ t ∈ ts, t.status = some 1 ∨ t.status = some 2) ∧
    calculateOrderStatus (some ts) = calculateOrderStatus (some ts) := by
  simp only [calculateOrderStatus]
  by_cases hall : ∀ t ∈ ts, t.status = some 2
  · rw [if_pos (by simpa [List.all_eq_true] using hall)]
    exact ⟨iff_of_true rfl hall,
      iff_of_false (by norm_num) (fun h => h.1 hall),
      iff_of_false (by norm_num) (fun h => h.1 hall), by trivial⟩
  · rw [if_neg (by simpa [List.all_eq_true] using hall)]
    by_cases hany : ∃ t ∈ ts, t.status = some 1 ∨ t.status = some 2
    · rw [if_pos (by simpa [List.any_eq_true] using hany)]
      exact ⟨iff_of_false (by norm_num) hall,
        iff_of_true rfl ⟨hall, hany⟩,
        iff_of_false (by norm_num) (fun h => h.2 hany), by trivial⟩
    · rw [if_neg (by simpa [List.any_eq_true] using hany)]
      exact ⟨iff_of_false (by norm_num) hall,
        iff_of_false (by norm_num) (fun h => hany h.2),
        iff_of_true rfl ⟨hall, hany⟩, by trivial⟩

/-- C4 witness at a concrete task list. -/
theorem c4_status_derivation_witness :
    calculateOrderStatus (some [({ status := some 1 } : Task)]) = 1 ↔
      ¬ (∀ t ∈ [({ status := some 1 } : Task)], t.status = some 2) ∧
        ∃ t ∈ [({ status := some 1 } : Task)], t.status = some 1 ∨ t.status = some 2 :=
  (c4_status_derivation [{ status := some 1 }]).2.1

/-! ### C10 -/

/-- C10 (implicit): an order whose task list is the empty array derives
status 2 — the all-completed check holds vacuously — so bulk ingestion stores
it with status 2, and the expiration sweep treats stored status 2 as
completed: the loop body skips it and the swept table keeps it unchanged. -/
theorem c10_empty_task_list_completed :
    calculateOrderStatus (some ([] : List Task)) = 2 ∧
    (∀ raw : RawOrder, ∀ o : Order, raw.tasks = some [] →
      normalizeUpsertOrder raw = some o → o.info.status = some 2) ∧
    (∀ today : Int, ∀ ea : Bool, ∀ codes : List Int, ∀ o : Order,
      o.info.status = some 2 → sweepOrderUpdate today ea codes o = none) ∧
    (∀ σ : Store, ∀ now today : Int, (σ.orders.map Order.code).Nodup →
      ∀ o ∈ σ.orders, o.info.status = some 2 →
        o ∈ (markOrdersExpired σ now today none).1.orders) := by
  refine ⟨rfl, ?_, ?_, ?_⟩
  · intro raw o htasks hnorm
    simp only [normalizeUpsertOrder] at hnorm
    split at hnorm
    · exact Option.noConfusion hnorm
    · injection hnorm with hnorm
      rw [← hnorm]
      simp [htasks]
      rfl
  · intro today ea codes o hst
    simp [sweepOrderUpdate, hst]
  · intro σ now today hnodup o ho hst
    exact markOrdersExpired_mem_of_none σ now today hnodup o ho
      (by simp [sweepOrderUpdate, hst])

/-- C10 witness: a concrete empty-task order at stored status 2 survives a
concrete sweep unchanged. -/
theorem c10_empty_task_list_completed_witness :
    ({ code := 9, info := { status := some 2 }, tasks := some [] } : Order) ∈
      (markOrdersExpired
        { orders := [{ code := 9, info := { status := some 2 }, tasks := some [] }],
          ordersMeta := [{ version := 1 }] } 0 20000 none).1.orders :=
  c10_empty_task_list_completed.2.2.2
    { orders := [{ code := 9, info := { status := some 2 }, tasks := some [] }],
      ordersMeta := [{ version := 1 }] } 0 20000 (by decide)
    { code := 9, info := { status := some 2 }, tasks := some [] } (by decide) rfl

/-! ### C2 -/

theorem applyUsersSnapshot_accepted_version (σ : Store) (meta : Option Meta)
    (users : Option (List User))
    (h : versionOfT σ.usersMeta < (meta.map Meta.version).getD 0) :
    versionOfT (applyUsersSnapshot σ meta users).1.usersMeta =
      (meta.map Meta.version).getD 0 := by
  simp only [applyUsersSnapshot]
  rw [if_neg (by omega)]
  exact versionOfT_metaPut_fresh σ.usersMeta _ h

theorem applyOrdersSnapshot_accepted_version (σ : Store) (meta : Option Meta)
    (orders : Option (List RawOrder)) (ctx : SnapshotContext)
    (h : versionOfT σ.ordersMeta < (meta.map Meta.version).getD 0) :
    versionOfT (applyOrdersSnapshot σ meta orders ctx).1.ordersMeta =
      (meta.map Meta.version).getD 0 := by
  simp only [applyOrdersSnapshot]
  rw [if_neg (by omega)]
  exact versionOfT_metaPut_fresh σ.ordersMeta _ h

/-- C2: a snapshot whose meta version is at most the local version is rejected
as a `stale-version` no-op that leaves the store untouched, for both the users
and the orders import; consequently applying the same snapshot payload twice
is a no-op (`stale-version` rejection) the second time, unconditionally. -/
theorem c2_stale_snapshot_rejection (σ : Store) (metaU : Option Meta)
    (users : Option (List User)) (metaO : Option Meta) (orders : Option (List RawOrder))
    (ctx : SnapshotContext)
    (hU : (metaU.map Meta.version).getD 0 ≤ versionOfT σ.usersMeta)
    (hO : (metaO.map Meta.version).getD 0 ≤ versionOfT σ.ordersMeta) :
    applyUsersSnapshot σ metaU users = (σ, .rejected "stale-version") ∧
    applyOrdersSnapshot σ metaO orders ctx = (σ, .rejected "stale-version") ∧
    (∀ σ0 : Store,
      applyUsersSnapshot (applyUsersSnapshot σ0 metaU users).1 metaU users =
        ((applyUsersSnapshot σ0 metaU users).1, .rejected "stale-version")) ∧
    (∀ σ0 : Store,
      applyOrdersSnapshot (applyOrdersSnapshot σ0 metaO orders ctx).1 metaO orders ctx =
        ((applyOrdersSnapshot σ0 metaO orders ctx).1, .rejected "stale-version")) := by
  refine ⟨?_, ?_, ?_, ?_⟩
  · simp only [applyUsersSnapshot]
    rw [if_pos hU]
  · simp only [applyOrdersSnapshot]
    rw [if_pos hO]
  · intro σ0
    by_cases hstale : (metaU.map Meta.version).getD 0 ≤ versionOfT σ0.usersMeta
    · have h1 : applyUsersSnapshot σ0 metaU users = (σ0, .rejected "stale-version") := by
        simp only [applyUsersSnapshot]
        rw [if_pos hstale]
      rw [h1]
      exact h1
    · have hv := applyUsersSnapshot_accepted_version σ0 metaU users (by omega)
      set σ1 := (applyUsersSnapshot σ0 metaU users).1 with hσ1
      have hcond : (metaU.map Meta.version).getD 0 ≤ versionOfT σ1.usersMeta :=
        le_of_eq hv.symm
      simp only [applyUsersSnapshot]
      rw [if_pos hcond]
  · intro σ0
    by_cases hstale : (metaO.map Meta.version).getD 0 ≤ versionOfT σ0.ordersMeta
    · have h1 : applyOrdersSnapshot σ0 metaO orders ctx = (σ0, .rejected "stale-version") := by
        simp only [applyOrdersSnapshot]
        rw [if_pos hstale]
      rw [h1]
      exact h1
    · have hv := applyOrdersSnapshot_accepted_version σ0 metaO orders ctx (by omega)
      set σ1 := (applyOrdersSnapshot σ0 metaO orders ctx).1 with hσ1
      have hcond : (metaO.map Meta.version).getD 0 ≤ versionOfT σ1.ordersMeta :=
        le_of_eq hv.symm
      simp only [applyOrdersSnapshot]
      rw [if_pos hcond]

/-- C2 witness: a concrete version-5 snapshot against a local version-6 store
is rejected and the store value is returned unchanged. -/
theorem c2_stale_snapshot_rejection_witness :
    applyUsersSnapshot
        { usersMeta := [{ version := 6 }], ordersMeta := [{ version := 6 }] }
        (some { version := 5 }) (some []) =
      ({ usersMeta := [{ version := 6 }], ordersMeta := [{ version := 6 }] },
        .rejected "stale-version") ∧
    applyOrdersSnapshot
        { usersMeta := [{ version := 6 }], ordersMeta := [{ version := 6 }] }
        (some { version := 5 }) (some []) {} =
      ({ usersMeta := [{ version := 6 }], ordersMeta := [{ version := 6 }] },
        .rejected "stale-version") :=
  ⟨(c2_stale_snapshot_rejection
      { usersMeta := [{ version := 6 }], ordersMeta := [{ version := 6 }] }
      (some { version := 5 }) (some []) (some { version := 5 }) (some []) {}
      (by decide) (by decide)).1,
   (c2_stale_snapshot_rejection
      { usersMeta := [{ version := 6 }], ordersMeta := [{ version := 6 }] }
      (some { version := 5 }) (some []) (some { version := 5 }) (some []) {}
      (by decide) (by decide)).2.1⟩

/-! ### C3 -/

/-- C3 counterexample: an accepted orders snapshot with an unscoped context is
not a full replace of the orders table — the local order with code 1, absent
from the incoming set (whose only code is 2), survives the import. -/
theorem c3_unscoped_not_full_replace :
    (applyOrdersSnapshot
        { orders := [{ code := 1 }], ordersMeta := [{ version := 1 }] }
        (some { version := 2 }) (some [{ code := some "2" }]) {}).2 = .applied ∧
    ({ code := 1 } : Order) ∈
      (applyOrdersSnapshot
        { orders := [{ code := 1 }], ordersMeta := [{ version := 1 }] }
        (some { version := 2 }) (some [{ code := some "2" }]) {}).1.orders ∧
    (((some [({ code := some "2" } : RawOrder)] : Option (List RawOrder)).getD
        []).filterMap normalizeSnapshotOrder).map Order.code = [2] := by
  refine ⟨?_, ?_, ?_⟩ <;> decide

/-- C3 (amended): an accepted orders snapshot first performs scoped tombstone
reconciliation — under a numeric `userCode` (respectively `speciality`, when
`userCode` is absent) it deletes the in-scope orders whose code is absent from
the incoming set and keeps out-of-scope rows — then upserts all incoming
orders and replaces the meta with the incoming one; with an unscoped context
it deletes nothing: existing orders absent from the snapshot survive
(upsert-merge, not a full table replace). -/
theorem c3_scoped_reconciliation (σ : Store) (meta : Option Meta)
    (orders : Option (List RawOrder)) (ctx : SnapshotContext) (σ' : Store)
    (r : ApplyResult) (normalized : List Order)
    (happly : applyOrdersSnapshot σ meta orders ctx = (σ', r))
    (haccept : versionOfT σ.ordersMeta < (meta.map Meta.version).getD 0)
    (hnodup : (σ.orders.map Order.code).Nodup)
    (hnorm : normalized = (orders.getD []).filterMap normalizeSnapshotOrder) :
    r = .applied ∧
    versionOfT σ'.ordersMeta = (meta.map Meta.version).getD 0 ∧
    ((normalized.map Order.code).Nodup → ∀ q ∈ normalized, q ∈ σ'.orders) ∧
    (∀ raw : String, ∀ target : Int, ctx.userCode = some raw →
      toInt (some raw) = some target →
      ∀ o ∈ σ.orders, o.info.asignado_a_code = some target →
        o.code ∉ normalized.map Order.code →
        ∀ y ∈ σ'.orders, y.code ≠ o.code) ∧
    (∀ raw : String, ∀ target : Int, ctx.userCode = some raw →
      toInt (some raw) = some target →
      ∀ o ∈ σ.orders, o.info.asignado_a_code ≠ some target →
        o.code ∉ normalized.map Order.code → o ∈ σ'.orders) ∧
    (∀ raw : String, ∀ target : Int, ctx.userCode = none → ctx.speciality = some raw →
      toInt (some raw) = some target →
      ∀ o ∈ σ.orders, o.info.especialidadId = some target →
        o.code ∉ normalized.map Order.code →
        ∀ y ∈ σ'.orders, y.code ≠ o.code) ∧
    (∀ raw : String, ∀ target : Int, ctx.userCode = none → ctx.speciality = some raw →
      toInt (some raw) = some target →
      ∀ o ∈ σ.orders, o.info.especialidadId ≠ some target →
        o.code ∉ normalized.map Order.code → o ∈ σ'.orders) ∧
    (ctx.userCode = none → ctx.speciality = none →
      ∀ o ∈ σ.orders, o.code ∉ normalized.map Order.code → o ∈ σ'.orders) := by
  simp only [applyOrdersSnapshot] at happly
  rw [if_neg (by omega)] at happly
  obtain ⟨hσ, hr⟩ := Prod.mk.injEq .. |>.mp happly
  subst hσ
  subst hr
  rw [← hnorm]
  constructor
  · rfl
  constructor
  · exact versionOfT_metaPut_fresh σ.ordersMeta _ haccept
  have horders2 : ∀ x : Order,
      x ∈ (if normalized.isEmpty = true then
            scopedRemoval ctx (normalized.map Order.code) σ.orders
          else bulkPutOrders normalized
            (scopedRemoval ctx (normalized.map Order.code) σ.orders)) →
        x ∈ scopedRemoval ctx (normalized.map Order.code) σ.orders ∨ x ∈ normalized := by
    intro x hx
    split at hx
    · exact Or.inl hx
    · exact mem_of_mem_bulkPutByKey Order.code normalized _ x hx
  have hkeep_mem : ∀ x : Order, x ∈ scopedRemoval ctx (normalized.map Order.code) σ.orders →
      x ∈ σ.orders := by
    intro x hx
    unfold scopedRemoval at hx
    split at hx
    · split at hx
      · exact hx
      · exact mem_scopedRemovalCore _ _ _ x hx
    · split at hx
      · exact hx
      · split at hx
        · exact hx
        · exact mem_scopedRemovalCore _ _ _ x hx
  refine ⟨?_, ?_, ?_, ?_, ?_, ?_⟩
  · -- all incoming orders are upserted
    intro hnd q hq
    have hne : normalized.isEmpty = false := by
      cases hl : normalized with
      | nil => rw [hl] at hq; cases hq
      | cons a rest => rfl
    show q ∈ (if normalized.isEmpty = true then _ else _)
    rw [hne]
    simp only [Bool.false_eq_true, if_false]
    exact mem_bulkPutByKey_of_mem_rows Order.code normalized _ q hnd hq
  · -- user-scoped deletion
    intro raw target hraw htarget o ho hassigned hkeep y hy
    rcases horders2 y hy with hy1 | hy1
    · simp only [scopedRemoval, hraw, htarget] at hy1
      exact scopedRemovalCore_drops _ (normalized.map Order.code) σ.orders o ho
        (by simp [hassigned]) (by simpa using hkeep) y hy1
    · intro hcontra
      exact hkeep (hcontra ▸ List.mem_map_of_mem Order.code hy1)
  · -- user-scoped survival of out-of-scope rows
    intro raw target hraw htarget o ho hassigned hkeep
    have ho1 : o ∈ scopedRemoval ctx (normalized.map Order.code) σ.orders := by
      simp only [scopedRemoval, hraw, htarget]
      exact scopedRemovalCore_keeps_unmatched _ (normalized.map Order.code) σ.orders
        hnodup o ho (by simp [hassigned])
    show o ∈ (if normalized.isEmpty = true then _ else _)
    split
    · exact ho1
    · exact mem_bulkPutByKey_of_not_mem Order.code normalized _ o ho1 hkeep
  · -- speciality-scoped deletion
    intro raw target huser hraw htarget o ho hsp hkeep y hy
    rcases horders2 y hy with hy1 | hy1
    · simp only [scopedRemoval, huser, hraw, htarget] at hy1
      exact scopedRemovalCore_drops _ (normalized.map Order.code) σ.orders o ho
        (by simp [hsp]) (by simpa using hkeep) y hy1
    · intro hcontra
      exact hkeep (hcontra ▸ List.mem_map_of_mem Order.code hy1)
  · -- speciality-scoped survival
    intro raw target huser hraw htarget o ho hsp hkeep
    have ho1 : o ∈ scopedRemoval ctx (normalized.map Order.code) σ.orders := by
      simp only [scopedRemoval, huser, hraw, htarget]
      exact scopedRemovalCore_keeps_unmatched _ (normalized.map Order.code) σ.orders
        hnodup o ho (by simp [hsp])
    show o ∈ (if normalized.isEmpty = true then _ else _)
    split
    · exact ho1
    · exact mem_bulkPutByKey_of_not_mem Order.code normalized _ o ho1 hkeep
  · -- unscoped: merge, nothing deleted
    intro huser hsp o ho hkeep
    have ho1 : o ∈ scopedRemoval ctx (normalized.map Order.code) σ.orders := by
      simp only [scopedRemoval, huser, hsp]
      exact ho
    show o ∈ (if normalized.isEmpty = true then _ else _)
    split
    · exact ho1
    · exact mem_bulkPutByKey_of_not_mem Order.code normalized _ o ho1 hkeep

/-- C3 witness: a concrete assignee-scoped snapshot (userCode 42, incoming
order 2 only) is accepted, upserts order 2, keeps the out-of-scope order 3,
and installs version 2. -/
theorem c3_scoped_reconciliation_witness :
    (applyOrdersSnapshot
        { orders := [{ code := 1, info := { asignado_a_code := some 42 } },
                     { code := 3, info := { asignado_a_code := some 7 } }],
          ordersMeta := [{ version := 1 }] }
        (some { version := 2 })
        (some [{ code := some "2", info := { asignado_a_code := some 42 } }])
        { userCode := some "42" }).2 = .applied ∧
    versionOfT (applyOrdersSnapshot
        { orders := [{ code := 1, info := { asignado_a_code := some 42 } },
                     { code := 3, info := { asignado_a_code := some 7 } }],
          ordersMeta := [{ version := 1 }] }
        (some { version := 2 })
        (some [{ code := some "2", info := { asignado_a_code := some 42 } }])
        { userCode := some "42" }).1.ordersMeta = 2 ∧
    ({ code := 2, info := { asignado_a_code := some 42 } } : Order) ∈
      (applyOrdersSnapshot
        { orders := [{ code := 1, info := { asignado_a_code := some 42 } },
                     { code := 3, info := { asignado_a_code := some 7 } }],
          ordersMeta := [{ version := 1 }] }
        (some { version := 2 })
        (some [{ code := some "2", info := { asignado_a_code := some 42 } }])
        { userCode := some "42" }).1.orders ∧
    ({ code := 3, info := { asignado_a_code := some 7 } } : Order) ∈
      (applyOrdersSnapshot
        { orders := [{ code := 1, info := { asignado_a_code := some 42 } },
                     { code := 3, info := { asignado_a_code := some 7 } }],
          ordersMeta := [{ version := 1 }] }
        (some { version := 2 })
        (some [{ code := some "2", info := { asignado_a_code := some 42 } }])
        { userCode := some "42" }).1.orders := by
  have T := c3_scoped_reconciliation
    { orders := [{ code := 1, info := { asignado_a_code := some 42 } },
                 { code := 3, info := { asignado_a_code := some 7 } }],
      ordersMeta := [{ version := 1 }] }
    (some { version := 2 })
    (some [{ code := some "2", info := { asignado_a_code := some 42 } }])
    { userCode := some "42" } _ _
    (((some [({ code := some "2", info := { asignado_a_code := some 42 } } : RawOrder)] :
        Option (List RawOrder)).getD []).filterMap normalizeSnapshotOrder)
    rfl (by decide) (by decide) rfl
  refine ⟨T.1, T.2.1, ?_, ?_⟩
  · exact T.2.2.1 (by decide) _ (by decide)
  · exact T.2.2.2.2.1 "42" 42 rfl (by decide) _ (by decide) (by decide) (by decide)

/-! ### C7 -/

theorem exceptOkExists {ε α : Type} (x : Except ε α) (h : x.isOk = true) :
    ∃ a, x = .ok a := by
  cases x with
  | error e => simp [Except.isOk, Except.toBool] at h
  | ok a => exact ⟨a, rfl⟩

theorem addUser_ok_full (σ : Store) (now : Int) (inp : AddUserInput) (σ' : Store)
    (h : addUser σ now inp = .ok σ') :
    ∃ c, toInt inp.code = some c ∧
      jsTrim (inp.name.getD "") ≠ "" ∧ jsTrim (inp.role.getD "") ≠ "" ∧
      ¬((jsTrim (inp.role.getD "") = "supervisor" ∨ jsTrim (inp.role.getD "") = "mantenedor") ∧
          toInt inp.speciality = none) ∧
      (∃ u ∈ σ'.users, u.code = c) := by
  simp only [addUser] at h
  split at h
  · exact Except.noConfusion h
  · rename_i c heq
    split_ifs at h with h1 h2 h3 h4 <;> try exact Except.noConfusion h
    all_goals injection h with h
    all_goals refine ⟨c, heq, h1, h2, h3, ?_⟩
    all_goals rw [← h]
    all_goals exact ⟨_, List.mem_append_right σ.users (List.mem_singleton_self _), rfl⟩

/-- C7: `addUser` fails with the validation errors for a non-numeric code, an
empty (trimmed) name, an empty role, and a missing speciality when the role is
supervisor or mantenedor; it fails with the conflict error when the code
already exists; and a successful `addUser` followed by a duplicate `addUser`
of the same input fails with the conflict error while the users meta version
has increased by exactly 1 (from the first call only). -/
theorem c7_addUser_errors (σ : Store) (now : Int) (inp : AddUserInput) :
    (toInt inp.code = none →
      addUser σ now inp = .error "El código debe ser un número entero válido.") ∧
    (jsTrim (inp.name.getD "") = "" → ∀ c, toInt inp.code = some c →
      addUser σ now inp = .error "El nombre es obligatorio.") ∧
    (jsTrim (inp.name.getD "") ≠ "" → jsTrim (inp.role.getD "") = "" →
      ∀ c, toInt inp.code = some c →
      addUser σ now inp = .error "El rol es obligatorio.") ∧
    (jsTrim (inp.name.getD "") ≠ "" →
      (jsTrim (inp.role.getD "") = "supervisor" ∨ jsTrim (inp.role.getD "") = "mantenedor") →
      toInt inp.speciality = none → ∀ c, toInt inp.code = some c →
      addUser σ now inp = .error "Selecciona una especialidad válida.") ∧
    (jsTrim (inp.name.getD "") ≠ "" → jsTrim (inp.role.getD "") ≠ "" →
      ¬((jsTrim (inp.role.getD "") = "supervisor" ∨
          jsTrim (inp.role.getD "") = "mantenedor") ∧ toInt inp.speciality = none) →
      ∀ c, toInt inp.code = some c → (∃ u ∈ σ.users, u.code = c) →
      addUser σ now inp = .error "Ya existe un usuario con ese código.") ∧
    (∀ σ' : Store, addUser σ now inp = .ok σ' →
      usersVersion σ' = usersVersion σ + 1 ∧
      addUser σ' now inp = .error "Ya existe un usuario con ese código.") := by
  refine ⟨?_, ?_, ?_, ?_, ?_, ?_⟩
  · intro hnone
    simp only [addUser, hnone]
  · intro hname c hc
    simp only [addUser, hc]
    rw [if_pos hname]
  · intro hname hrole c hc
    simp only [addUser, hc]
    rw [if_neg hname, if_pos hrole]
  · intro hname hreq hspec c hc
    simp only [addUser, hc]
    rw [if_neg hname]
    rw [if_neg (fun hrole => by rcases hreq with h | h <;> simp [hrole] at h)]
    rw [if_pos ⟨hreq, hspec⟩]
  · intro hname hrole hspec c hc hexists
    simp only [addUser, hc]
    rw [if_neg hname, if_neg hrole, if_neg hspec,
      if_pos (by simpa [List.any_eq_true] using hexists)]
  · intro σ' hok
    obtain ⟨c, hc, hname, hrole, hspec, hexists⟩ := addUser_ok_full σ now inp σ' hok
    obtain ⟨⟨r, hmeta⟩, _, _⟩ := addUser_ok σ now inp σ' hok
    constructor
    · simp only [usersVersion, hmeta, versionOfT_bumpMeta]
    · simp only [addUser, hc]
      rw [if_neg hname, if_neg hrole, if_neg hspec,
        if_pos (by simpa [List.any_eq_true] using hexists)]

/-- C7 witness: the spec's scenario — `addUser(code=100, name="Ana",
role="mantenedor", speciality=1)` succeeds bumping the version from 1 to 2,
and repeating it fails with the conflict error. -/
theorem c7_addUser_errors_witness :
    ∃ σ' : Store,
      addUser { usersMeta := [{ version := 1 }] } 0
          { code := some "100", name := some "Ana", role := some "mantenedor",
            speciality := some "1" } = .ok σ' ∧
      usersVersion σ' =
        usersVersion ({ usersMeta := [{ version := 1 }] } : Store) + 1 ∧
      addUser σ' 0
          { code := some "100", name := some "Ana", role := some "mantenedor",
            speciality := some "1" } =
        .error "Ya existe un usuario con ese código." := by
  obtain ⟨σ', hok⟩ := exceptOkExists
    (addUser { usersMeta := [{ version := 1 }] } 0
      { code := some "100", name := some "Ana", role := some "mantenedor",
        speciality := some "1" }) (by decide)
  have T := (c7_addUser_errors { usersMeta := [{ version := 1 }] } 0
    { code := some "100", name := some "Ana", role := some "mantenedor",
      speciality := some "1" }).2.2.2.2.2 σ' hok
  exact ⟨σ', hok, T.1, T.2⟩

/-! ### C8 -/

/-- C8 counterexample: `deleteUser` on an absent code (5, in a store holding
only user 1) does not fail with a not-found error — it succeeds, leaves the
users table unchanged, and still bumps the users meta version from 1 to 2. -/
theorem c8_deleteUser_counterexample :
    (deleteUser { users := [{ code := 1 }], usersMeta := [{ version := 1 }] } 0
        (some "5")).isOk = true ∧
    Except.map usersVersion
        (deleteUser { users := [{ code := 1 }], usersMeta := [{ version := 1 }] } 0
          (some "5")) = .ok 2 ∧
    Except.map Store.users
        (deleteUser { users := [{ code := 1 }], usersMeta := [{ version := 1 }] } 0
          (some "5")) = .ok [{ code := 1 }] :=
  ⟨by decide, rfl, rfl⟩

/-- C8 (amended): `cancelOrder`, `startOrderTask` and `completeOrderTask` fail
with a not-found error when the target order or task index does not exist,
leaving the store unchanged (an error result carries no store); `deleteUser`,
by contrast, performs no existence check: deleting an absent code succeeds,
leaves the users table unchanged, and still bumps the users meta version by 1. -/
theorem c8_not_found_behaviour (σ : Store) (now : Int) :
    (∀ code reason detail : Option String, ∀ c : Int, toInt code = some c →
      (∀ o ∈ σ.orders, o.code ≠ c) →
      cancelOrder σ now code reason detail = .error "order not found") ∧
    (∀ code idx : Option String, ∀ c i : Int, toInt code = some c → toInt idx = some i →
      ¬ i < 0 → (∀ o ∈ σ.orders, o.code ≠ c) →
      startOrderTask σ now code idx = .error "order not found") ∧
    (∀ code idx : Option String, ∀ c i : Int, ∀ order : Order, ∀ taskList : List Task,
      toInt code = some c → toInt idx = some i → ¬ i < 0 →
      σ.orders.find? (fun o => o.code = c) = some order →
      order.tasks = some taskList → taskList[i.toNat]? = none →
      startOrderTask σ now code idx = .error "task not found") ∧
    (∀ code idx : Option String, ∀ upd : CompleteUpdates, ∀ c i : Int,
      toInt code = some c → toInt idx = some i → ¬ i < 0 →
      (∀ o ∈ σ.orders, o.code ≠ c) →
      completeOrderTask σ now code idx upd = .error "order not found") ∧
    (∀ code idx : Option String, ∀ upd : CompleteUpdates, ∀ c i : Int, ∀ order : Order,
      ∀ taskList : List Task,
      toInt code = some c → toInt idx = some i → ¬ i < 0 →
      σ.orders.find? (fun o => o.code = c) = some order →
      order.tasks = some taskList → taskList[i.toNat]? = none →
      completeOrderTask σ now code idx upd = .error "task not found") ∧
    (∀ code : Option String, ∀ c : Int, toInt code = some c →
      (∀ u ∈ σ.users, u.code ≠ c) →
      ∃ σ' : Store, deleteUser σ now code = .ok σ' ∧ σ'.users = σ.users ∧
        usersVersion σ' = usersVersion σ + 1) := by
  refine ⟨?_, ?_, ?_, ?_, ?_, ?_⟩
  · intro code reason detail c hc habsent
    have hfind : σ.orders.find? (fun o => o.code = c) = none :=
      List.find?_eq_none.mpr (fun o ho => by simpa using habsent o ho)
    simp only [cancelOrder, hc, hfind]
  · intro code idx c i hc hi hneg habsent
    have hfind : σ.orders.find? (fun o => o.code = c) = none :=
      List.find?_eq_none.mpr (fun o ho => by simpa using habsent o ho)
    simp only [startOrderTask, hc, hi, hfind, if_neg hneg]
  · intro code idx c i order taskList hc hi hneg hfind htasks hoob
    simp only [startOrderTask, hc, hi, hfind, htasks, hoob, if_neg hneg]
  · intro code idx upd c i hc hi hneg habsent
    have hfind : σ.orders.find? (fun o => o.code = c) = none :=
      List.find?_eq_none.mpr (fun o ho => by simpa using habsent o ho)
    simp only [completeOrderTask, hc, hi, hfind, if_neg hneg]
  · intro code idx upd c i order taskList hc hi hneg hfind htasks hoob
    simp only [completeOrderTask, hc, hi, hfind, htasks, hoob, if_neg hneg]
  · intro code c hc habsent
    refine ⟨_, by simp only [deleteUser, hc]; rfl, ?_, ?_⟩
    · show σ.users.filter (fun u => u.code ≠ c) = σ.users
      apply List.filter_eq_self.mpr
      intro u hu
      simpa using habsent u hu
    · show usersVersion { σ with
          users := σ.users.filter (fun u => u.code ≠ c)
          usersMeta := bumpMeta now ("delete user " ++ toString c) σ.usersMeta } =
        usersVersion σ + 1
      simp only [usersVersion, versionOfT_bumpMeta]

/-- C8 witness: concrete not-found failures for `cancelOrder` and
`startOrderTask` against a store holding only order 1 with no tasks. -/
theorem c8_not_found_behaviour_witness :
    cancelOrder { orders := [{ code := 1 }], ordersMeta := [{ version := 1 }] } 0
        (some "9") (some "r") (some "d") = .error "order not found" ∧
    startOrderTask { orders := [{ code := 1 }], ordersMeta := [{ version := 1 }] } 0
        (some "9") (some "0") = .error "order not found" :=
  ⟨(c8_not_found_behaviour
      { orders := [{ code := 1 }], ordersMeta := [{ version := 1 }] } 0).1
      (some "9") (some "r") (some "d") 9 (by decide) (by decide),
   (c8_not_found_behaviour
      { orders := [{ code := 1 }], ordersMeta := [{ version := 1 }] } 0).2.1
      (some "9") (some "0") 9 0 (by decide) (by decide) (by decide) (by decide)⟩

/-! ### C6 -/

/-- C6: on a successful `completeOrderTask`, the completed task's
`duration_seconds` is `max 0 ⌊(end − start)/1s⌋` where the start reference is
the first available of the task's `init_task`, the order's `fecha_inicio`,
else the completion instant itself — hence never negative; and the resulting
`info.hs_reales` is never negative, and is 0 when no start candidate parses or
when the end−start difference is non-positive (the end instant is the
completion timestamp, which always parses in this model). -/
theorem c6_completeTask_duration (σ : Store) (now : Int)
    (orderCode taskIndex : Option String) (updates : CompleteUpdates)
    (p : Store × Order × Task) (c i : Int) (order : Order) (taskList : List Task)
    (prevTask : Task) (hsStart : Option Int)
    (hc : toInt orderCode = some c) (hi : toInt taskIndex = some i)
    (hfind : σ.orders.find? (fun o => o.code = c) = some order)
    (htasks : order.tasks = some taskList)
    (hget : taskList[i.toNat]? = some prevTask)
    (hhs : hsStart = ((order.info.fecha_inicio.or order.info.fecha_inicio).or
      prevTask.init_task).or
      ((taskList.find? (fun t => t.init_task.isSome)).bind Task.init_task))
    (h : completeOrderTask σ now orderCode taskIndex updates = .ok p) :
    p.2.2.duration_seconds =
      some (max 0 (Int.fdiv
        (now - (prevTask.init_task.or order.info.fecha_inicio).getD now) 1000)) ∧
    (∀ d : Int, p.2.2.duration_seconds = some d → 0 ≤ d) ∧
    (∃ hs : ℚ, p.2.1.info.hs_reales = some hs ∧ 0 ≤ hs ∧
      (hsStart = none → hs = 0) ∧
      (∀ s : Int, hsStart = some s → now - s ≤ 0 → hs = 0)) := by
  simp only [completeOrderTask, hc, hi] at h
  split at h
  · exact Except.noConfusion h
  · simp only [hfind, htasks, hget] at h
    injection h with h
    have hdur : p.2.2.duration_seconds =
        some (max 0 (Int.fdiv
          (now - (prevTask.init_task.or order.info.fecha_inicio).getD now) 1000)) := by
      rw [← h]
      rcases updates with ⟨cb, acc, obs, med, rd, rh⟩
      cases obs <;> cases med <;> cases rd <;> cases rh
      all_goals split <;> rfl
    refine ⟨hdur, ?_, ?_⟩
    · intro d hd
      rw [hdur] at hd
      injection hd with hd
      rw [← hd]
      exact le_max_left 0 _
    · refine ⟨_, by rw [← h], ?_, ?_, ?_⟩
      · -- the stored hs value is non-negative
        rw [← hhs]
        cases hsStart with
        | none => exact le_refl 0
        | some s =>
          show (0 : ℚ) ≤ (if now - s ≤ 0 then 0
            else ((round (((now - s : Int) : ℚ) / 3600000 * 100) : ℚ) / 100))
          split
          · norm_num
          · rename_i hpos
            push_neg at hpos
            have hq : (0 : ℚ) < ((now - s : Int) : ℚ) / 3600000 * 100 := by
              have : (0 : ℚ) < ((now - s : Int) : ℚ) := by exact_mod_cast hpos
              positivity
            have hr : (0 : ℤ) ≤ round (((now - s : Int) : ℚ) / 3600000 * 100) := by
              rw [round_eq]
              apply Int.le_floor.mpr
              have hq2 := hq
              push_cast at hq2 ⊢
              linarith
            have : (0 : ℚ) ≤ (round (((now - s : Int) : ℚ) / 3600000 * 100) : ℚ) := by
              exact_mod_cast hr
            exact div_nonneg this (by norm_num)
      · intro hnone
        rw [← hhs, hnone]
      · intro s hsome hnonpos
        rw [← hhs, hsome]
        show (if now - s ≤ 0 then (0 : ℚ)
          else ((round (((now - s : Int) : ℚ) / 3600000 * 100) : ℚ) / 100)) = 0
        rw [if_pos hnonpos]

/-- C6 witness: a concrete completion 3 seconds after the task's start stores
`duration_seconds = 3` and a non-negative `hs_reales`. -/
def c6Task : Task := { status := some 0, init_task := some 2000 }

def c6Order : Order :=
  { code := 1, info := { fecha_inicio := some 1000 }, tasks := some [c6Task] }

def c6Store : Store := { orders := [c6Order], ordersMeta := [{ version := 1 }] }

theorem c6_completeTask_duration_witness :
    ∃ p : Store × Order × Task,
      completeOrderTask c6Store 5000 (some "1") (some "0") {} = .ok p ∧
      p.2.2.duration_seconds = some 3 ∧
      ∃ hs : ℚ, p.2.1.info.hs_reales = some hs ∧ 0 ≤ hs := by
  obtain ⟨p, hp⟩ := exceptOkExists
    (completeOrderTask c6Store 5000 (some "1") (some "0") {}) (by decide)
  have T := c6_completeTask_duration c6Store 5000 (some "1") (some "0") {} p 1 0
    c6Order [c6Task] c6Task (some 1000)
    (by decide) (by decide) (by decide) rfl rfl rfl hp
  refine ⟨p, hp, ?_, ?_⟩
  · rw [T.1]
    rfl
  · obtain ⟨hs, heq, hnn, _, _⟩ := T.2.2
    exact ⟨hs, heq, hnn⟩

/-! ### C9 -/

theorem digitsVal_twoDigits (n : Nat) (h : n ≤ 99) : digitsVal (twoDigits n) = n := by
  simp only [digitsVal, twoDigits, List.foldl]
  omega

/-- C9 counterexample: a timestamp string whose offset minutes are out of
range (99) but carry no fractional part is not sanitized — the guard regex
requires a dot after the minutes — and the parser rejects it (`null`) instead
of clamping it into range and returning a normalized instant. -/
theorem c9_out_of_range_minutes_not_clamped :
    sanitizeLegacyOffsetString ⟨0, true, 3, [9, 9], none⟩ = ⟨0, true, 3, [9, 9], none⟩ ∧
    parseFlexibleDate (.str ⟨0, true, 3, [9, 9], none⟩) = none := by
  refine ⟨rfl, ?_⟩
  decide

/-- C9 (amended): the flexible date parser clamps malformed offset minute
components into 0–59 before parsing only when they carry a fractional part
(the sanitizer's regex requires the dot): for every such string the truncated
minute value is clamped, re-rendered as two digits, and the sanitized string
parses to a normalized instant; out-of-range minutes without a fraction are
left unsanitized (see the counterexample), and unparseable values yield the
null signal. -/
theorem c9_fractional_offset_clamped (s : StampStr) (f : List (Fin 10))
    (hfrac : s.frac = some f) :
    (sanitizeLegacyOffsetString s).minDigits =
      twoDigits (min 59 (max 0 (digitsVal s.minDigits))) ∧
    (sanitizeLegacyOffsetString s).frac = none ∧
    digitsVal (sanitizeLegacyOffsetString s).minDigits ≤ 59 ∧
    parseFlexibleDate (.str s) =
      some (s.baseMs -
        (if s.signNeg then
            -((s.offHH * 60 + min 59 (max 0 (digitsVal s.minDigits)) : Nat) : Int)
          else ((s.offHH * 60 + min 59 (max 0 (digitsVal s.minDigits)) : Nat) : Int)) *
          60000) ∧
    parseFlexibleDate .other = none := by
  have hsan : sanitizeLegacyOffsetString s =
      { s with minDigits := twoDigits (min 59 (max 0 (digitsVal s.minDigits))),
               frac := none } := by
    simp only [sanitizeLegacyOffsetString, hfrac]
  have hm : min 59 (max 0 (digitsVal s.minDigits)) ≤ 99 := by omega
  have hdv : digitsVal (twoDigits (min 59 (max 0 (digitsVal s.minDigits)))) =
      min 59 (max 0 (digitsVal s.minDigits)) := digitsVal_twoDigits _ hm
  have hne : ¬ sanitizeLegacyOffsetString s = s := by
    intro hcontra
    have hfr := congrArg StampStr.frac hcontra
    rw [hsan] at hfr
    simp [hfrac] at hfr
  have hparse1 : jsDateParseStamp s = none := by
    simp [jsDateParseStamp, hfrac]
  have hfr2 : (sanitizeLegacyOffsetString s).frac = none := by rw [hsan]
  have hmin2 : (sanitizeLegacyOffsetString s).minDigits =
      twoDigits (min 59 (max 0 (digitsVal s.minDigits))) := by rw [hsan]
  have hbase2 : (sanitizeLegacyOffsetString s).baseMs = s.baseMs := by rw [hsan]
  have hsign2 : (sanitizeLegacyOffsetString s).signNeg = s.signNeg := by rw [hsan]
  have hoff2 : (sanitizeLegacyOffsetString s).offHH = s.offHH := by rw [hsan]
  have hparse2 : jsDateParseStamp (sanitizeLegacyOffsetString s) =
      some (s.baseMs -
        (if s.signNeg then
            -((s.offHH * 60 + min 59 (max 0 (digitsVal s.minDigits)) : Nat) : Int)
          else ((s.offHH * 60 + min 59 (max 0 (digitsVal s.minDigits)) : Nat) : Int)) *
          60000) := by
    simp only [jsDateParseStamp]
    rw [if_pos ⟨hfr2, by rw [hmin2]; rfl, by rw [hmin2, hdv]; omega⟩]
    rw [hmin2, hdv, hbase2, hsign2, hoff2]
  refine ⟨by rw [hsan], by rw [hsan], by rw [hsan, hdv]; omega, ?_, rfl⟩
  simp only [parseFlexibleDate, hparse1]
  rw [if_pos hne, hparse2]

/-- C9 witness: the string shape `...-03:75.5` (fractional, out-of-range
minutes) is clamped to `-03:59` and parses to the corresponding instant. -/
theorem c9_fractional_offset_clamped_witness :
    (sanitizeLegacyOffsetString ⟨1000, true, 3, [7, 5], some [5]⟩).minDigits =
      twoDigits (min 59 (max 0 (digitsVal ([7, 5] : List (Fin 10))))) ∧
    parseFlexibleDate (.str ⟨1000, true, 3, [7, 5], some [5]⟩) = some 14341000 := by
  have T := c9_fractional_offset_clamped ⟨1000, true, 3, [7, 5], some [5]⟩ [5] rfl
  refine ⟨T.1, ?_⟩
  rw [T.2.2.2.1]
  rfl

/-! ### C5 -/

/-- C5: with a parseable start day and integer frequency, the expiration
window is `dueDate = start + frequency` and `expirationDate = start +
frequency + 4`; on the evaluate-all sweep, orders at stored status 2 are
never touched; and every other order ends the sweep with status 4 exactly
when today is strictly past its expiration date, a status-4 order no longer
past the window being restored to the task-list derivation with the
auto-expiry note removed exactly when it equals the default note text. -/
theorem c5_expiration_window_and_sweep (σ : Store) (now today : Int)
    (hnodup : (σ.orders.map Order.code).Nodup) :
    (∀ info : OrderInfo, ∀ s f : Int, info.fInicialDay = some s →
      toInt info.frecDias = some f →
      computeExpirationInfo (some info) =
        some { startDate := s, frequencyDays := f, dueDate := s + f,
               expirationDate := s + f + 4 }) ∧
    (∀ o ∈ σ.orders, o.info.status = some 2 →
      sweepOrderUpdate today true [] o = none ∧
        o ∈ (markOrdersExpired σ now today none).1.orders) ∧
    (∀ o ∈ σ.orders, o.info.status ≠ some 2 →
      ∃ o' : Order, o' ∈ (markOrdersExpired σ now today none).1.orders ∧
        o'.code = o.code ∧
        (o'.info.status = some 4 ↔ isOrderExpired o today = true) ∧
        (o.info.status = some 4 → isOrderExpired o today = false →
          o'.info.status = some (calculateOrderStatus o.tasks) ∧
          o'.info.obs_anulada =
            (if o.info.obs_anulada = some (Obs.txt AUTO_EXPIRED_NOTE) then none
             else o.info.obs_anulada))) := by
  refine ⟨?_, ?_, ?_⟩
  · intro info s f h1 h2
    simp only [computeExpirationInfo, h1, h2]
  · intro o ho hst
    refine ⟨by simp [sweepOrderUpdate, hst], ?_⟩
    exact markOrdersExpired_mem_of_none σ now today hnodup o ho
      (by simp [sweepOrderUpdate, hst])
  · intro o ho hst
    have heval := sweepOrderUpdate_eval today o hst
    by_cases hexp : isOrderExpired o today = true
    · by_cases hst4 : o.info.status = some 4
      · -- already expired and already at 4: untouched
        rw [if_pos hexp, if_neg (not_not_intro hst4)] at heval
        refine ⟨o, markOrdersExpired_mem_of_none σ now today hnodup o ho heval, rfl,
          iff_of_true hst4 hexp, ?_⟩
        intro _ hfalse
        rw [hexp] at hfalse
        exact Bool.noConfusion hfalse
      · -- newly marked expired
        rw [if_pos hexp, if_pos hst4] at heval
        refine ⟨_, markOrdersExpired_mem_of_some σ now today hnodup o _ ho heval, rfl,
          iff_of_true (by split <;> rfl) hexp, ?_⟩
        intro h4 _
        exact absurd h4 hst4
    · have hexp' : isOrderExpired o today = false := by
        cases hb : isOrderExpired o today with
        | true => exact absurd hb hexp
        | false => rfl
      rw [hexp'] at heval
      simp only [Bool.false_eq_true, if_false] at heval
      by_cases hst4 : o.info.status = some 4
      · -- restored from status 4
        rw [if_pos hst4] at heval
        have hne4 : calculateOrderStatus o.tasks ≠ 4 := by
          rcases calculateOrderStatus_cases o.tasks with h | h | h <;> omega
        refine ⟨_, markOrdersExpired_mem_of_some σ now today hnodup o _ ho heval, rfl,
          ?_, ?_⟩
        · refine iff_of_false ?_ ?_
          · show ¬ _
            split <;> (intro hcontra; injection hcontra with h2; exact hne4 h2)
          · intro hc
            rw [hexp'] at hc
            exact Bool.noConfusion hc
        · intro _ _
          constructor
          · split <;> rfl
          · by_cases hobs : o.info.obs_anulada = some (Obs.txt AUTO_EXPIRED_NOTE)
            · rw [if_pos hobs, if_pos hobs]
            · rw [if_neg hobs, if_neg hobs]
      · -- not expired and not at 4: untouched
        rw [if_neg hst4] at heval
        refine ⟨o, markOrdersExpired_mem_of_none σ now today hnodup o ho heval, rfl,
          iff_of_false hst4 ?_, ?_⟩
        · intro hc
          rw [hexp'] at hc
          exact Bool.noConfusion hc
        · intro h4 _
          exact absurd h4 hst4

def c5ExpiringOrder : Order :=
  { code := 1, info := { status := some 0, fInicialDay := some 0, frecDias := some "7" } }

def c5CompletedOrder : Order := { code := 9, info := { status := some 2 } }

def c5Store : Store :=
  { orders := [c5ExpiringOrder, c5CompletedOrder], ordersMeta := [{ version := 1 }] }

/-- C5 witness: start day 0 with frequency 7 gives dueDate 7 and
expirationDate 11, and the completed order 9 survives a sweep run at day 12
untouched. -/
theorem c5_expiration_window_and_sweep_witness :
    computeExpirationInfo (some c5ExpiringOrder.info) =
      some { startDate := 0, frequencyDays := 7, dueDate := 0 + 7,
             expirationDate := 0 + 7 + 4 } ∧
    sweepOrderUpdate 12 true [] c5CompletedOrder = none ∧
    c5CompletedOrder ∈ (markOrdersExpired c5Store 0 12 none).1.orders := by
  have T := c5_expiration_window_and_sweep c5Store 0 12 (by decide)
  have h2 := T.2.1 c5CompletedOrder (by decide) rfl
  exact ⟨T.1 c5ExpiringOrder.info 0 7 rfl (by decide), h2.1, h2.2⟩

/-! ### C1 -/

def c1Store : Store := { ordersMeta := [{ version := 1 }] }

def c1Raw : RawOrder := { code := some "7" }

/-- C1 counterexample: `bulkUpsertOrders` performs the orders `bulkPut` and
the meta bump as two separate awaits with no enclosing transaction, so the
state after the first auto-transaction commits is durably visible with the
record written and the version unchanged — the write and the increment do not
occur inside one transaction. -/
theorem c1_bulkUpsert_not_atomic :
    (bulkUpsertOrdersPhase1 c1Store [c1Raw]).orders ≠ c1Store.orders ∧
    (bulkUpsertOrdersPhase1 c1Store [c1Raw]).ordersMeta = c1Store.ordersMeta ∧
    ordersVersion (bulkUpsertOrdersPhase1 c1Store [c1Raw]) = ordersVersion c1Store ∧
    ordersVersion (bulkUpsertOrders c1Store 0 [c1Raw]).1 = ordersVersion c1Store + 1 :=
  ⟨by decide, rfl, rfl, rfl⟩

/-- C1 (amended): every mutating operation other than `bulkUpsertOrders`
couples its record write with exactly one increment of the owning meta
version and one appended changeLog line inside a single transaction, a sweep
that writes nothing leaves the store unchanged, and `bulkUpsertOrders` still
increments by exactly 1 on its success path — so after N successful mutations
the owning meta version is N more than its initial value — but
`bulkUpsertOrders` runs the record write and the bump as two separate
transactions (see the counterexample for the visible intermediate state). -/
theorem c1_meta_version_discipline (now : Int) :
    (∀ σ : Store, ∀ inp : AddUserInput, ∀ σ' : Store, addUser σ now inp = .ok σ' →
      usersVersion σ' = usersVersion σ + 1 ∧ usersLogLen σ' = usersLogLen σ + 1) ∧
    (∀ σ : Store, ∀ code : Option String, ∀ patch : UserPatch, ∀ σ' : Store,
      updateUser σ now code patch = .ok σ' →
      usersVersion σ' = usersVersion σ + 1 ∧ usersLogLen σ' = usersLogLen σ + 1) ∧
    (∀ σ : Store, ∀ code : Option String, ∀ σ' : Store, deleteUser σ now code = .ok σ' →
      usersVersion σ' = usersVersion σ + 1 ∧ usersLogLen σ' = usersLogLen σ + 1) ∧
    (∀ σ : Store, ∀ raws : List RawOrder,
      ordersVersion (bulkUpsertOrders σ now raws).1 = ordersVersion σ + 1 ∧
      ordersLogLen (bulkUpsertOrders σ now raws).1 = ordersLogLen σ + 1) ∧
    (∀ σ : Store, ∀ code reason detail : Option String, ∀ p : Store × Order,
      cancelOrder σ now code reason detail = .ok p →
      ordersVersion p.1 = ordersVersion σ + 1 ∧ ordersLogLen p.1 = ordersLogLen σ + 1) ∧
    (∀ σ : Store, ∀ code idx : Option String, ∀ p : Store × Order × Task,
      startOrderTask σ now code idx = .ok p →
      ordersVersion p.1 = ordersVersion σ + 1 ∧ ordersLogLen p.1 = ordersLogLen σ + 1) ∧
    (∀ σ : Store, ∀ code idx : Option String, ∀ upd : CompleteUpdates,
      ∀ p : Store × Order × Task, completeOrderTask σ now code idx upd = .ok p →
      ordersVersion p.1 = ordersVersion σ + 1 ∧ ordersLogLen p.1 = ordersLogLen σ + 1) ∧
    (∀ σ : Store, ∀ code : Option String, ∀ payload : Int, ∀ p : Store × Order,
      saveOrderChecklist σ now code payload = .ok p →
      ordersVersion p.1 = ordersVersion σ + 1 ∧ ordersLogLen p.1 = ordersLogLen σ + 1) ∧
    (∀ σ : Store, ∀ today : Int, ∀ codes : Option (List (Option String)),
      (markOrdersExpired σ now today codes).1 = σ ∨
      (ordersVersion (markOrdersExpired σ now today codes).1 = ordersVersion σ + 1 ∧
       ordersLogLen (markOrdersExpired σ now today codes).1 = ordersLogLen σ + 1)) ∧
    (∀ ms : List Mutation, ∀ σ σ' : Store, runMutations now σ ms = .ok σ' →
      usersVersion σ' = usersVersion σ + (ms.filter isUsersMutation).length ∧
      ordersVersion σ' = ordersVersion σ + (ms.filter (fun m => ¬ isUsersMutation m)).length) := by
  refine ⟨?_, ?_, ?_, ?_, ?_, ?_, ?_, ?_, ?_, ?_⟩
  · intro σ inp σ' h
    obtain ⟨⟨r, hr⟩, _, _⟩ := addUser_ok σ now inp σ' h
    simp [usersVersion, usersLogLen, hr, versionOfT_bumpMeta, logLenT_bumpMeta]
  · intro σ code patch σ' h
    obtain ⟨⟨r, hr⟩, _, _⟩ := updateUser_ok σ now code patch σ' h
    simp [usersVersion, usersLogLen, hr, versionOfT_bumpMeta, logLenT_bumpMeta]
  · intro σ code σ' h
    obtain ⟨⟨r, hr⟩, _, _⟩ := deleteUser_ok σ now code σ' h
    simp [usersVersion, usersLogLen, hr, versionOfT_bumpMeta, logLenT_bumpMeta]
  · intro σ raws
    obtain ⟨hm, _, _⟩ := bulkUpsertOrders_shape σ now raws
    simp [ordersVersion, ordersLogLen, hm, versionOfT_bumpMeta, logLenT_bumpMeta]
  · intro σ code reason detail p h
    obtain ⟨⟨r, hr⟩, _, _⟩ := cancelOrder_ok σ now code reason detail p h
    simp [ordersVersion, ordersLogLen, hr, versionOfT_bumpMeta, logLenT_bumpMeta]
  · intro σ code idx p h
    obtain ⟨⟨r, hr⟩, _, _⟩ := startOrderTask_ok σ now code idx p h
    simp [ordersVersion, ordersLogLen, hr, versionOfT_bumpMeta, logLenT_bumpMeta]
  · intro σ code idx upd p h
    obtain ⟨⟨r, hr⟩, _, _⟩ := completeOrderTask_ok σ now code idx upd p h
    simp [ordersVersion, ordersLogLen, hr, versionOfT_bumpMeta, logLenT_bumpMeta]
  · intro σ code payload p h
    obtain ⟨⟨r, hr⟩, _, _⟩ := saveOrderChecklist_ok σ now code payload p h
    simp [ordersVersion, ordersLogLen, hr, versionOfT_bumpMeta, logLenT_bumpMeta]
  · intro σ today codes
    rcases markOrdersExpired_shape σ now today codes with h | ⟨⟨r, hr⟩, _, _⟩
    · exact Or.inl h
    · right
      simp [ordersVersion, ordersLogLen, hr, versionOfT_bumpMeta, logLenT_bumpMeta]
  · intro ms σ σ' h
    exact runMutations_versions now ms σ σ' h

def c1WitnessStore : Store := { usersMeta := [{ version := 1 }], ordersMeta := [{ version := 1 }] }

/-- C1 witness: one successful user mutation and one successful orders
mutation leave each meta version exactly 1 above its initial value. -/
theorem c1_meta_version_discipline_witness :
    ∃ σ' : Store,
      runMutations 0 c1WitnessStore
          [Mutation.addU { code := some "100", name := some "Ana", role := some "admin" },
           Mutation.bulkUps [c1Raw]] = .ok σ' ∧
      usersVersion σ' = usersVersion c1WitnessStore + 1 ∧
      ordersVersion σ' = ordersVersion c1WitnessStore + 1 := by
  obtain ⟨σ', h⟩ := exceptOkExists
    (runMutations 0 c1WitnessStore
      [Mutation.addU { code := some "100", name := some "Ana", role := some "admin" },
       Mutation.bulkUps [c1Raw]]) (by decide)
  have T := (c1_meta_version_discipline 0).2.2.2.2.2.2.2.2.2
    [Mutation.addU { code := some "100", name := some "Ana", role := some "admin" },
     Mutation.bulkUps [c1Raw]] c1WitnessStore σ' h
  refine ⟨σ', h, ?_, ?_⟩
  · rw [T.1]
    rfl
  · rw [T.2]
    rfl

end SIGEM
